import Mathlib

/-!
# urlgrep: a shallow embedding of `main.go` and proofs about it

Go strings are byte sequences.  They are embedded as Lean `String`s that carry
one `Char` per byte (a `Char` with code below 256 stands for that byte), so an
ASCII literal reads the same on both sides.  String helpers are written on the
underlying `List Char` by structural recursion, so that every definition can be
evaluated on concrete inputs.

Three libraries are used by the program:

* `net/url`: embedded below (`url.Parse`, the accessor methods of `URL`, the
  query parser), following the standard library's code;
* `regexp`: a compiled regular expression is represented by its matching
  function `MatchString`; the compiler is a parameter;
* `github.com/Cgboal/DomainParser`: the three lookups used by the program are
  the fields of `Parser`, a parameter.
-/

namespace Urlgrep

/-! ## The `strings` package -/

/-- The list form of `strings.Cut` for a one-byte separator:
`(before, after, found)`. -/
def cutChars (sep : Char) : List Char → List Char × List Char × Bool
  | [] => ([], [], false)
  | c :: cs =>
    if c = sep then ([], cs, true)
    else
      let r := cutChars sep cs
      (c :: r.1, r.2.1, r.2.2)

/-- The list form of `strings.Split` for a one-byte separator; the result is
never empty (`strings.Split("", "/")` is one empty piece). -/
def splitChars (sep : Char) : List Char → List (List Char)
  | [] => [[]]
  | c :: cs =>
    if c = sep then [] :: splitChars sep cs
    else
      match splitChars sep cs with
      | [] => [[c]]
      | p :: ps => (c :: p) :: ps

/-- The text before the last occurrence of `sep`, and the text from that
occurrence on (`s[:i]`, `s[i:]` for `i = strings.LastIndex(s, sep)`);
`none` when `sep` does not occur. -/
def cutLastChars (sep : Char) : List Char → Option (List Char × List Char)
  | [] => none
  | c :: cs =>
    match cutLastChars sep cs with
    | some (b, a) => some (c :: b, a)
    | none => if c = sep then some ([], c :: cs) else none

/-- The text before the first occurrence of `pat`, and the text from that
occurrence on (`s[:i]`, `s[i:]` for `i = strings.Index(s, pat)`). -/
def cutIndexChars (pat : List Char) : List Char → Option (List Char × List Char)
  | [] => if pat = [] then some ([], []) else none
  | c :: cs =>
    if pat.isPrefixOf (c :: cs) then some ([], c :: cs)
    else
      match cutIndexChars pat cs with
      | some (b, a) => some (c :: b, a)
      | none => none

/-- `strings.Cut(s, sep)` for a one-byte separator. -/
def stringsCut (s : String) (sep : Char) : String × String × Bool :=
  let r := cutChars sep s.data
  (⟨r.1⟩, ⟨r.2.1⟩, r.2.2)

/-- `strings.Split(s, sep)` for a one-byte separator. -/
def stringsSplit (s : String) (sep : Char) : List String :=
  (splitChars sep s.data).map String.mk

/-- `strings.Contains(s, sep)` for a one-byte `sep`. -/
def stringsContains (s : String) (sep : Char) : Bool :=
  s.data.contains sep

/-- `strings.HasPrefix`. -/
def startsWith (s p : String) : Bool :=
  p.data.isPrefixOf s.data

/-- `strings.HasSuffix`. -/
def stringsHasSuffix (s p : String) : Bool :=
  p.data.isSuffixOf s.data

/-- `strings.TrimSuffix`. -/
def stringsTrimSuffix (s p : String) : String :=
  if stringsHasSuffix s p then ⟨s.data.take (s.data.length - p.data.length)⟩ else s

/-- `strings.ToLower` on the bytes `A`..`Z`; other bytes are kept (the only
caller passes a scheme, which is made of ASCII letters, digits, `+`, `-`, `.`). -/
def toLowerChar (c : Char) : Char :=
  if 65 ≤ c.toNat ∧ c.toNat ≤ 90 then Char.ofNat (c.toNat + 32) else c

/-- `strings.ToLower`, see `toLowerChar`. -/
def stringsToLower (s : String) : String :=
  ⟨s.data.map toLowerChar⟩

/-! ## The `regexp` package -/

/-- A compiled regular expression (`*regexp.Regexp`), given by its
`MatchString` method. -/
structure Regexp where
  MatchString : String → Bool

/-- What `regexp.MustCompile(p)` denotes when `p` contains no metacharacter:
an unanchored search for `p` as a substring. -/
def literalRegexp (p : String) : Regexp :=
  ⟨fun s => (cutIndexChars p.data s.data).isSome⟩

/-- What `regexp.MustCompile("^" + p + "$")` denotes when `p` contains no
metacharacter: the whole text equals `p`. -/
def anchoredRegexp (p : String) : Regexp :=
  ⟨fun s => decide (s = p)⟩

/-! ## The `DomainParser` package -/

/-- The public-suffix splitter (`parser.Parser`): the three lookups the program
calls on a hostname. -/
structure Parser where
  GetDomain : String → String
  GetTld : String → String
  GetSubdomain : String → String

/-! ## The `net/url` package -/

/-- The escaping modes of `net/url` (`encoding`). -/
inductive Encoding where
  | encodePath
  | encodePathSegment
  | encodeHost
  | encodeZone
  | encodeUserPassword
  | encodeQueryComponent
  | encodeFragment
  deriving DecidableEq, Repr

/-- The error of `net/url` (`*url.Error`): operation, URL text and cause. -/
structure Error where
  Op : String
  URL : String
  Err : String
  deriving DecidableEq, Repr

/-- The user part of a URL (`*url.Userinfo`). -/
structure Userinfo where
  username : String
  password : String
  passwordSet : Bool
  deriving DecidableEq, Repr

/-- A parsed URL (`url.URL`); `User = none` is the nil pointer. -/
structure URL where
  Scheme : String
  Opaque : String
  User : Option Userinfo
  Host : String
  Path : String
  RawPath : String
  OmitHost : Bool
  ForceQuery : Bool
  RawQuery : String
  Fragment : String
  RawFragment : String
  deriving DecidableEq, Repr

/-- The zero value of `url.URL` (`new(URL)`). -/
def URL.zero : URL :=
  ⟨"", "", none, "", "", "", false, false, "", "", ""⟩

/-- The map type `url.Values` (`map[string][]string`) as an association list
with one entry per key, in order of first insertion. -/
abbrev Values := List (String × List String)

/-- Reading `m[key]`: the stored slice, or the nil slice when the key is absent. -/
def Values.get (m : Values) (key : String) : List String :=
  match m with
  | [] => []
  | (k, vs) :: rest => if k = key then vs else Values.get rest key

/-- The statement `m[key] = append(m[key], value)`. -/
def Values.add (m : Values) (key value : String) : Values :=
  match m with
  | [] => [(key, [value])]
  | (k, vs) :: rest =>
    if k = key then (k, vs ++ [value]) :: rest else (k, vs) :: Values.add rest key value

/-- Letters `a`..`z`, `A`..`Z`. -/
def isAlpha (c : Char) : Bool :=
  (97 ≤ c.toNat && c.toNat ≤ 122) || (65 ≤ c.toNat && c.toNat ≤ 90)

/-- Digits `0`..`9`. -/
def isDigit (c : Char) : Bool :=
  48 ≤ c.toNat && c.toNat ≤ 57

/-- The function `ishex`. -/
def ishex (c : Char) : Bool :=
  isDigit c || (97 ≤ c.toNat && c.toNat ≤ 102) || (65 ≤ c.toNat && c.toNat ≤ 70)

/-- The function `unhex`. -/
def unhex (c : Char) : Nat :=
  if isDigit c then c.toNat - 48
  else if 97 ≤ c.toNat ∧ c.toNat ≤ 102 then c.toNat - 97 + 10
  else if 65 ≤ c.toNat ∧ c.toNat ≤ 70 then c.toNat - 65 + 10
  else 0

/-- The function `shouldEscape(c, mode)`. -/
def shouldEscape (c : Char) (mode : Encoding) : Bool :=
  if isAlpha c || isDigit c then false
  else if (mode = .encodeHost ∨ mode = .encodeZone) ∧
      c ∈ ['!', '$', '&', Char.ofNat 39, '(', ')', '*', '+', ',', ';', '=', ':', '[', ']',
        '<', '>', '"'] then false
  else if c ∈ ['-', '_', '.', '~'] then false
  else if c ∈ ['$', '&', '+', ',', '/', ':', ';', '=', '?', '@'] then
    match mode with
    | .encodePath => c = '?'
    | .encodePathSegment => c = '/' || c = ';' || c = ',' || c = '?'
    | .encodeUserPassword => c = '@' || c = '/' || c = '?' || c = ':'
    | .encodeQueryComponent => true
    | .encodeFragment => false
    | _ => true
  else if mode = .encodeFragment ∧ c ∈ ['!', '(', ')', '*'] then false
  else true

/-- First pass of `unescape`: the well-formedness check of the `%` escapes and
of host bytes; `some e` is the error text.  The texts leave out the quoting
that `net/url` puts around the offending bytes; failure and success are those
of the library. -/
def unescapeCheck (mode : Encoding) : List Char → Option String
  | [] => none
  | c :: rest =>
    if c = '%' then
      match rest with
      | a :: b :: rest2 =>
        if !(ishex a && ishex b) then some ("invalid URL escape " ++ String.mk [c, a, b])
        else if mode = .encodeHost ∧ unhex a < 8 ∧ [c, a, b] ≠ ['%', '2', '5'] then
          some ("invalid URL escape " ++ String.mk [c, a, b])
        else if mode = .encodeZone ∧ [c, a, b] ≠ ['%', '2', '5'] ∧
            unhex a * 16 + unhex b ≠ 32 ∧
            shouldEscape (Char.ofNat (unhex a * 16 + unhex b)) .encodeHost then
          some ("invalid URL escape " ++ String.mk [c, a, b])
        else unescapeCheck mode rest2
      | _ => some ("invalid URL escape " ++ String.mk (c :: rest))
    else if c = '+' then unescapeCheck mode rest
    else if (mode = .encodeHost ∨ mode = .encodeZone) ∧ c.toNat < 128 ∧
        shouldEscape c .encodeHost then
      some ("invalid character " ++ String.mk [c] ++ " in host name")
    else unescapeCheck mode rest

/-- Second pass of `unescape`: decoding (`%XX` to the byte, and `+` to a space
in query-component mode).  The last case of the inner match is not reached
after a successful first pass. -/
def unescapeDecode (mode : Encoding) : List Char → List Char
  | [] => []
  | c :: rest =>
    if c = '%' then
      match rest with
      | a :: b :: rest2 => Char.ofNat (unhex a * 16 + unhex b) :: unescapeDecode mode rest2
      | _ => c :: rest
    else if c = '+' then
      (if mode = .encodeQueryComponent then ' ' else '+') :: unescapeDecode mode rest
    else c :: unescapeDecode mode rest

/-- The function `unescape(s, mode)`. -/
def unescape (s : String) (mode : Encoding) : Except String String :=
  match unescapeCheck mode s.data with
  | some e => .error e
  | none => .ok ⟨unescapeDecode mode s.data⟩

/-- The function `QueryUnescape`. -/
def QueryUnescape (s : String) : Except String String :=
  unescape s .encodeQueryComponent

/-- The upper-case hexadecimal digit of a value below 16. -/
def upperhex (n : Nat) : Char :=
  if n < 10 then Char.ofNat (48 + n) else Char.ofNat (55 + n)

/-- The list form of `escape`. -/
def escapeChars (mode : Encoding) : List Char → List Char
  | [] => []
  | c :: rest =>
    if shouldEscape c mode then
      if c = ' ' ∧ mode = .encodeQueryComponent then '+' :: escapeChars mode rest
      else '%' :: upperhex (c.toNat / 16 % 16) :: upperhex (c.toNat % 16) :: escapeChars mode rest
    else c :: escapeChars mode rest

/-- The function `escape(s, mode)`. -/
def escape (s : String) (mode : Encoding) : String :=
  ⟨escapeChars mode s.data⟩

/-- The function `validEncoded(s, mode)`. -/
def validEncoded (s : String) (mode : Encoding) : Bool :=
  s.data.all fun c =>
    c ∈ ['!', '$', '&', Char.ofNat 39, '(', ')', '*', '+', ',', ';', '=', ':', '@', '[', ']', '%']
      || !shouldEscape c mode

/-- The function `stringContainsCTLByte`. -/
def stringContainsCTLByte (s : String) : Bool :=
  s.data.any fun c => c.toNat < 32 || c.toNat = 127

/-- The list form of `getScheme`, with the text consumed so far in `acc`
(reversed); `none` is the error "missing protocol scheme". -/
def getSchemeChars (whole : List Char) (acc : List Char) :
    List Char → Option (List Char × List Char)
  | [] => some ([], whole)
  | c :: cs =>
    if isAlpha c then getSchemeChars whole (c :: acc) cs
    else if isDigit c || c = '+' || c = '-' || c = '.' then
      if acc = [] then some ([], whole) else getSchemeChars whole (c :: acc) cs
    else if c = ':' then
      if acc = [] then none else some (acc.reverse, cs)
    else some ([], whole)

/-- The function `getScheme(rawURL)`: `(scheme, path)`. -/
def getScheme (rawURL : String) : Except String (String × String) :=
  match getSchemeChars rawURL.data [] rawURL.data with
  | none => .error "missing protocol scheme"
  | some (s, p) => .ok (⟨s⟩, ⟨p⟩)

/-- The function `validOptionalPort`. -/
def validOptionalPort (port : String) : Bool :=
  match port.data with
  | [] => true
  | c :: rest => c = ':' && rest.all isDigit

/-- The function `validUserinfo`. -/
def validUserinfo (s : String) : Bool :=
  s.data.all fun r =>
    isAlpha r || isDigit r ||
      r ∈ ['-', '.', '_', ':', '~', '!', '$', '&', Char.ofNat 39, '(', ')', '*', '+', ',', ';',
        '=', '%', '@']

/-- The function `parseHost(host)`.  The error texts are shortened (the library
quotes the bracket and names the offending port); failure and success are those
of the library. -/
def parseHost (host : String) : Except String String :=
  let plain : Except String String := unescape host .encodeHost
  if startsWith host "[" then
    match cutLastChars ']' host.data with
    | none => .error "missing ] in host"
    | some (front, back) =>
      if !validOptionalPort ⟨back.drop 1⟩ then .error "invalid port after host"
      else
        match cutIndexChars ['%', '2', '5'] front with
        | some (h1, zone) =>
          match unescape ⟨h1⟩ .encodeHost with
          | .error e => .error e
          | .ok host1 =>
            match unescape ⟨zone⟩ .encodeZone with
            | .error e => .error e
            | .ok host2 =>
              match unescape ⟨back⟩ .encodeHost with
              | .error e => .error e
              | .ok host3 => .ok (host1 ++ host2 ++ host3)
        | none => plain
  else
    match cutLastChars ':' host.data with
    | some (_, colonPort) =>
      if !validOptionalPort ⟨colonPort⟩ then .error "invalid port after host" else plain
    | none => plain

/-- The function `parseAuthority(authority)`: `(user, host)`. -/
def parseAuthority (authority : String) : Except String (Option Userinfo × String) :=
  match cutLastChars '@' authority.data with
  | none =>
    match parseHost authority with
    | .error e => .error e
    | .ok host => .ok (none, host)
  | some (userinfo, atHost) =>
    match parseHost ⟨atHost.drop 1⟩ with
    | .error e => .error e
    | .ok host =>
      if !validUserinfo ⟨userinfo⟩ then .error "net/url: invalid userinfo"
      else if !userinfo.contains ':' then
        match unescape ⟨userinfo⟩ .encodeUserPassword with
        | .error e => .error e
        | .ok username => .ok (some ⟨username, "", false⟩, host)
      else
        let r := cutChars ':' userinfo
        match unescape ⟨r.1⟩ .encodeUserPassword with
        | .error e => .error e
        | .ok username =>
          match unescape ⟨r.2.1⟩ .encodeUserPassword with
          | .error e => .error e
          | .ok password => .ok (some ⟨username, password, true⟩, host)

/-- The method `(*URL).setPath(p)`. -/
def URL.setPath (u : URL) (p : String) : Except String URL :=
  match unescape p .encodePath with
  | .error e => .error e
  | .ok path =>
    .ok { u with Path := path, RawPath := if p = escape path .encodePath then "" else p }

/-- The method `(*URL).setFragment(f)`. -/
def URL.setFragment (u : URL) (f : String) : Except String URL :=
  match unescape f .encodeFragment with
  | .error e => .error e
  | .ok frag =>
    .ok { u with Fragment := frag,
                 RawFragment := if f = escape frag .encodeFragment then "" else f }

/-- The part of `parse(rawURL, false)` after the query has been split off:
opaque form, authority and path, in the order of the code. -/
def parseHier (u1 : URL) (rest1 : String) : Except String URL :=
  if !startsWith rest1 "/" ∧ u1.Scheme ≠ "" then .ok { u1 with Opaque := rest1 }
  else if !startsWith rest1 "/" ∧ stringsContains (stringsCut rest1 '/').1 ':' then
    .error "first path segment in URL cannot contain colon"
  else if (u1.Scheme ≠ "" ∨ !startsWith rest1 "///") ∧ startsWith rest1 "//" then
    let afterSlashes := rest1.data.drop 2
    let authority : List Char :=
      match cutIndexChars ['/'] afterSlashes with
      | some (a, _) => a
      | none => afterSlashes
    let rest2 : List Char :=
      match cutIndexChars ['/'] afterSlashes with
      | some (_, r) => r
      | none => []
    match parseAuthority ⟨authority⟩ with
    | .error e => .error e
    | .ok (user, host) => URL.setPath { u1 with User := user, Host := host } ⟨rest2⟩
  else if u1.Scheme ≠ "" ∧ startsWith rest1 "/" then
    URL.setPath { u1 with OmitHost := true } rest1
  else URL.setPath u1 rest1

/-- The part of `parse(rawURL, false)` after the scheme has been split off and
stored in `u`: the query is split off, then `parseHier`. -/
def parseRest (u : URL) (rest0 : String) : Except String URL :=
  if stringsHasSuffix rest0 "?" ∧ rest0.data.count '?' = 1 then
    parseHier { u with ForceQuery := true } ⟨rest0.data.dropLast⟩
  else
    parseHier { u with RawQuery := (stringsCut rest0 '?').2.1 } (stringsCut rest0 '?').1

/-- The function `parse(rawURL, viaRequest)` for `viaRequest = false`. -/
def parse (rawURL : String) : Except String URL :=
  if stringContainsCTLByte rawURL then .error "net/url: invalid control character in URL"
  else if rawURL = "*" then .ok { URL.zero with Path := "*" }
  else
    match getScheme rawURL with
    | .error e => .error e
    | .ok (scheme, rest) => parseRest { URL.zero with Scheme := stringsToLower scheme } rest

/-- The function `url.Parse(rawURL)`. -/
def url.Parse (rawURL : String) : Except Error URL :=
  let r := stringsCut rawURL '#'
  match parse r.1 with
  | .error e => .error ⟨"parse", r.1, e⟩
  | .ok u =>
    if r.2.1 = "" then .ok u
    else
      match URL.setFragment u r.2.1 with
      | .error e => .error ⟨"parse", rawURL, e⟩
      | .ok u2 => .ok u2

/-- The function `splitHostPort(hostPort)`: `(host, port)`. -/
def splitHostPort (hostPort : String) : String × String :=
  let hp : List Char × List Char :=
    match cutLastChars ':' hostPort.data with
    | some (h, colonPort) =>
      if validOptionalPort ⟨colonPort⟩ then (h, colonPort.drop 1) else (hostPort.data, [])
    | none => (hostPort.data, [])
  let host : List Char :=
    if ['['].isPrefixOf hp.1 ∧ [']'].isSuffixOf hp.1 then (hp.1.drop 1).dropLast else hp.1
  (⟨host⟩, ⟨hp.2⟩)

/-- The method `(*URL).Hostname()`. -/
def URL.Hostname (u : URL) : String :=
  (splitHostPort u.Host).1

/-- The method `(*URL).Port()`. -/
def URL.Port (u : URL) : String :=
  (splitHostPort u.Host).2

/-- The method `(*URL).EscapedPath()`. -/
def URL.EscapedPath (u : URL) : String :=
  let fallback : String := if u.Path = "*" then "*" else escape u.Path .encodePath
  if u.RawPath ≠ "" ∧ validEncoded u.RawPath .encodePath then
    match unescape u.RawPath .encodePath with
    | .ok p => if p = u.Path then u.RawPath else fallback
    | .error _ => fallback
  else fallback

/-- The method `(*URL).EscapedFragment()`. -/
def URL.EscapedFragment (u : URL) : String :=
  if u.RawFragment ≠ "" ∧ validEncoded u.RawFragment .encodeFragment then
    match unescape u.RawFragment .encodeFragment with
    | .ok f => if f = u.Fragment then u.RawFragment else escape u.Fragment .encodeFragment
    | .error _ => escape u.Fragment .encodeFragment
  else escape u.Fragment .encodeFragment

/-- The method `(*Userinfo).String()`, the empty string on the nil pointer. -/
def Userinfo.String : Option Userinfo → String
  | none => ""
  | some ui =>
    if ui.passwordSet then
      escape ui.username .encodeUserPassword ++ ":" ++ escape ui.password .encodeUserPassword
    else escape ui.username .encodeUserPassword

/-- One iteration of the loop of `parseQuery` on the piece `key` (the text up
to the next `&`): the new map and error. -/
def parseQueryStep (st : Values × Option String) (key : String) : Values × Option String :=
  if stringsContains key ';' then (st.1, some "invalid semicolon separator in query")
  else if key = "" then st
  else
    let kv := stringsCut key '='
    match QueryUnescape kv.1 with
    | .error e1 => (st.1, if st.2 = none then some e1 else st.2)
    | .ok k =>
      match QueryUnescape kv.2.1 with
      | .error e1 => (st.1, if st.2 = none then some e1 else st.2)
      | .ok v => (Values.add st.1 k v, st.2)

/-- A cut at `sep` leaves strictly less text than a non-empty input had: the
loops `for query != ""` below make progress. -/
theorem cutChars_after_lt (sep : Char) (l : List Char) (h : l ≠ []) :
    (cutChars sep l).2.1.length < l.length := by
  induction l with
  | nil => exact absurd rfl h
  | cons c cs ih =>
    unfold cutChars
    split
    · simp
    · by_cases hcs : cs = []
      · subst hcs
        simp [cutChars]
      · have := ih hcs
        simp only [List.length_cons]
        omega

/-- The loop shared by `parseQuery` and `parseQueryV2`:
`for query != "" { key, query, _ = strings.Cut(query, "&"); body }`, where
`body` updates the state (the map and the error) from the piece `key`. -/
def queryLoop {σ : Type} (body : σ → String → σ) (st : σ) (query : String) : σ :=
  if query.data = [] then st
  else queryLoop body (body st (stringsCut query '&').1) (stringsCut query '&').2.1
termination_by query.data.length
decreasing_by
  exact cutChars_after_lt '&' query.data (by assumption)

/-- The function `parseQuery(m, query)` of `net/url`, from the state `(m, err)`. -/
def parseQuery (st : Values × Option String) (query : String) : Values × Option String :=
  queryLoop parseQueryStep st query

/-- The method `(*URL).Query()`: `ParseQuery(u.RawQuery)` with the error dropped. -/
def URL.Query (u : URL) : Values :=
  (parseQuery ([], none) u.RawQuery).1

/-! ## `main.go` -/

/-- The type `Condition`. -/
structure Condition where
  Mode : String
  Negate : Bool
  Regex : Regexp

/-- The package-level variables the predicates read: the domain splitter
`extractor` and the flag `rawMode`. -/
structure Globals where
  extractor : Parser
  rawMode : Bool

/-- The type `urlProc`. -/
abbrev urlProc := URL → Regexp → Bool

/-- One iteration of the loop of `parseQueryV2` on the piece `key` (the text up
to the next `&`): the new map and error.  The unescaping of `parseQuery` is
commented out in the source, so key and value are stored as they are. -/
def parseQueryV2Step (st : Values × Option String) (key : String) : Values × Option String :=
  if stringsContains key ';' then (st.1, some "invalid semicolon separator in query")
  else if key = "" then st
  else
    let kv := stringsCut key '='
    (Values.add st.1 kv.1 kv.2.1, st.2)

/-- The function `parseQueryV2(m, query)`: the map after the call and the
returned error (`none` is nil). -/
def parseQueryV2 (m : Values) (query : String) : Values × Option String :=
  queryLoop parseQueryV2Step (m, none) query

/-- The function `QueryV2`. -/
def QueryV2 (u : URL) : Values :=
  (parseQueryV2 [] u.RawQuery).1

/-- The function `key`. -/
def key (g : Globals) (u : URL) (re : Regexp) : Bool :=
  let q : Values := if g.rawMode then QueryV2 u else u.Query
  q.any fun kv => re.MatchString kv.1

/-- The function `value`. -/
def value (g : Globals) (u : URL) (re : Regexp) : Bool :=
  let q : Values := if g.rawMode then QueryV2 u else u.Query
  q.any fun kv => kv.2.any fun val => re.MatchString val

/-- The function `scheme`. -/
def scheme (u : URL) (re : Regexp) : Bool :=
  re.MatchString u.Scheme

/-- The function `opaque` of the source (renamed: the word is reserved in Lean). -/
def opaqueProc (u : URL) (re : Regexp) : Bool :=
  re.MatchString u.Opaque

/-- The function `userinfo`. -/
def userinfo (u : URL) (re : Regexp) : Bool :=
  re.MatchString (Userinfo.String u.User)

/-- The function `domain`. -/
def domain (u : URL) (re : Regexp) : Bool :=
  re.MatchString u.Hostname

/-- The function `apex`. -/
def apex (g : Globals) (u : URL) (re : Regexp) : Bool :=
  re.MatchString (g.extractor.GetDomain u.Hostname ++ "." ++ g.extractor.GetTld u.Hostname)

/-- The function `path`. -/
def path (u : URL) (re : Regexp) : Bool :=
  re.MatchString u.EscapedPath

/-- The function `keyPairs`. -/
def keyPairs (g : Globals) (u : URL) (re : Regexp) : Bool :=
  let q : Values := if g.rawMode then QueryV2 u else u.Query
  q.any fun kv => kv.2.any fun val => re.MatchString (kv.1 ++ "=" ++ val)

/-- The function `subdomain`. -/
def subdomain (g : Globals) (u : URL) (re : Regexp) : Bool :=
  re.MatchString (g.extractor.GetSubdomain u.Hostname)

/-- The function `tld`. -/
def tld (g : Globals) (u : URL) (re : Regexp) : Bool :=
  re.MatchString (g.extractor.GetTld u.Hostname)

/-- The function `ext`. -/
def ext (u : URL) (re : Regexp) : Bool :=
  let paths := stringsSplit u.Path '/'
  if paths.length = 0 ∨ paths.getLastD "" = "" then false
  else
    let lastSegment := paths.getLastD ""
    let parts := stringsSplit lastSegment '.'
    if parts.length > 1 then re.MatchString (parts.getLastD "") else false

/-- The function `port`. -/
def port (u : URL) (re : Regexp) : Bool :=
  re.MatchString u.Port

/-- The function `fragment`. -/
def fragment (u : URL) (re : Regexp) : Bool :=
  re.MatchString u.EscapedFragment

/-- The function `parseURL`; `parse` is `url.Parse`. -/
def parseURL (parse : String → Except Error URL) (raw : String) : Except Error URL :=
  match parse raw with
  | .error err => .error err
  | .ok u => if u.Scheme = "" then parse ("http://" ++ raw) else .ok u

/-- The map literal `procMap` of `main`, in the order of the source. -/
def procMapEntries (g : Globals) : List (String × urlProc) :=
  [("scheme", scheme),
   ("opaque", opaqueProc),
   ("userinfo", userinfo),
   ("domain", domain),
   ("subdomain", subdomain g),
   ("apex", apex g),
   ("tld", tld g),
   ("port", port),
   ("path", path),
   ("keypairs", keyPairs g),
   ("key", key g),
   ("value", value g),
   ("ext", ext),
   ("fragment", fragment)]

/-- The lookup `procMap[mode]`: `none` when `ok` is false. -/
def procMap (g : Globals) (mode : String) : Option urlProc :=
  (procMapEntries g).lookup mode

/-- The body of the configuration loop of `main` for one mode/regex pair
(lines 68-93): the condition appended, or the message printed before
`os.Exit(1)`.  `compile` is `regexp.Compile`. -/
def buildCondition (compile : String → Option Regexp) (g : Globals) (mode0 regexStr : String) :
    Except String Condition :=
  let negate : Bool := stringsHasSuffix mode0 ":not"
  let mode : String := if negate then stringsTrimSuffix mode0 ":not" else mode0
  match procMap g mode with
  | none => .error ("Unknown mode specified: " ++ mode)
  | some _ =>
    match compile regexStr with
    | none => .error ("Invalid regex for mode " ++ mode)
    | some re => .ok ⟨mode, negate, re⟩

/-- The configuration loop of `main` over the remaining arguments, two at a
time, with the conditions collected so far. -/
def buildConditions (compile : String → Option Regexp) (g : Globals) :
    List String → List Condition → Except String (List Condition)
  | mode :: regexStr :: rest, conditions =>
    match buildCondition compile g mode regexStr with
    | .error e => .error e
    | .ok c => buildConditions compile g rest (conditions ++ [c])
  | _, conditions => .ok conditions

/-- The inner loop of `main` (lines 110-128): the value of `match` after the
conditions have been tried in order, stopping at the first one that is unknown
or false. -/
def matchConditions (g : Globals) : List Condition → URL → Bool
  | [], _ => true
  | cond :: rest, u =>
    match procMap g cond.Mode with
    | none => false
    | some procFn =>
      let result := procFn u cond.Regex
      let result := if cond.Negate then !result else result
      if !result then false else matchConditions g rest u

/-- The state of the scanning loop: the set `seen` (the keys set to true) and
the lines written to `bufWriter` so far. -/
structure StreamState where
  seen : List String
  out : List String

/-- One iteration of the scanning loop of `main` (lines 101-140) on the line `str`. -/
def processLine (parse : String → Except Error URL) (g : Globals) (conditions : List Condition)
    (st : StreamState) (str : String) : StreamState :=
  match parseURL parse str with
  | .error _ => st
  | .ok u =>
    if matchConditions g conditions u then
      if str ∈ st.seen then st
      else ⟨str :: st.seen, st.out ++ [str]⟩
    else st

/-- The scanning loop of `main` over the lines the scanner delivers: the lines
written to standard output, in order. -/
def processLines (parse : String → Except Error URL) (g : Globals) (conditions : List Condition)
    (lines : List String) : List String :=
  (lines.foldl (processLine parse g conditions) ⟨[], []⟩).out

/-- What a run leaves behind: the lines on standard output and the exit status. -/
structure RunResult where
  stdout : List String
  exitCode : Nat

/-- The function `main` after flag parsing: `args` are the positional
arguments, `lines` the lines of standard input. -/
def main (parse : String → Except Error URL) (compile : String → Option Regexp) (g : Globals)
    (args : List String) (lines : List String) : RunResult :=
  if args.length % 2 ≠ 0 then ⟨[], 1⟩
  else
    match buildConditions compile g args [] with
    | .error _ => ⟨[], 1⟩
    | .ok conditions => ⟨processLines parse g conditions lines, 0⟩

/-! ## Definitions that follow the specification's words -/

/-- Evaluation of one condition as the specification words it: the registered
predicate's result, inverted when the condition is negated; a condition without
a registered predicate has no true result. -/
def specEvaluate (g : Globals) (c : Condition) (u : URL) : Bool :=
  match procMap g c.Mode with
  | none => false
  | some procFn => xor (procFn u c.Regex) c.Negate

/-- The decision for one line: it parses and its conditions all hold. -/
def lineMatches (parse : String → Except Error URL) (g : Globals) (conditions : List Condition)
    (str : String) : Bool :=
  match parseURL parse str with
  | .error _ => false
  | .ok u => matchConditions g conditions u

/-- A list with every occurrence after the first removed. -/
def firstOccurrences : List String → List String
  | [] => []
  | x :: xs => x :: (firstOccurrences xs).filter (fun y => decide (y ≠ x))

/-- The text after the last occurrence of `sep` in `s`: the longest tail of `s`
without `sep` (all of `s` when `sep` does not occur). -/
def afterLast (sep : Char) (s : String) : String :=
  ⟨s.data.rtakeWhile (fun c => decide (c ≠ sep))⟩

/-- The `&`-separated pairs of a query string. -/
def pairsOf (q : String) : List String :=
  (q.data.splitOn '&').map String.mk

/-- The text of a pair before its first `=` (the whole pair when it has none). -/
def pairKey (p : String) : String :=
  ⟨p.data.takeWhile (fun c => decide (c ≠ '='))⟩

/-- The text of a pair after its first `=` (empty when it has none). -/
def pairValue (p : String) : String :=
  ⟨(p.data.dropWhile (fun c => decide (c ≠ '='))).drop 1⟩

/-- A pair that is not empty and holds no `;`. -/
def recordedPair (p : String) : Bool :=
  decide (p ≠ "") && !p.data.contains ';'

/-- The query string with the pairs that hold a `;` deleted. -/
def dropSemicolonPairs (q : String) : String :=
  ⟨['&'].intercalate ((q.data.splitOn '&').filter (fun p => !p.contains ';'))⟩

/-- The keys of a map. -/
def Values.keys (m : Values) : List String :=
  m.map Prod.fst

/-- The query map the query modes iterate over: the raw parser's map when the
raw flag is set, the standard (decoding) parser's map otherwise. -/
def queryMap (g : Globals) (u : URL) : Values :=
  if g.rawMode then QueryV2 u else u.Query

/-- The 14 mode names of the registry, as the specification lists them. -/
def registryNames : List String :=
  ["scheme", "opaque", "userinfo", "domain", "subdomain", "apex", "tld", "port", "path",
    "keypairs", "key", "value", "ext", "fragment"]

/-- The number of values stored in a map, over all keys. -/
def Values.count (m : Values) : Nat :=
  (m.map (fun kv => kv.2.length)).sum

/-! ## Lemmas -/

theorem matchConditions_eq_all (g : Globals) (conds : List Condition) (u : URL) :
    matchConditions g conds u = conds.all (fun c => specEvaluate g c u) := by
  induction conds with
  | nil => rfl
  | cons c cs ih =>
    have hc : specEvaluate g c u =
        (match procMap g c.Mode with
          | none => false
          | some procFn => xor (procFn u c.Regex) c.Negate) := rfl
    simp only [matchConditions, List.all_cons]
    rw [ih, hc]
    cases procMap g c.Mode with
    | none => simp
    | some f =>
      cases c.Negate <;> cases f u c.Regex <;> simp

theorem mem_firstOccurrences (l : List String) (s : String) :
    s ∈ firstOccurrences l ↔ s ∈ l := by
  induction l with
  | nil => simp [firstOccurrences]
  | cons x xs ih =>
    simp only [firstOccurrences, List.mem_cons, List.mem_filter, ih]
    by_cases h : s = x <;> simp [h]

theorem firstOccurrences_nodup (l : List String) : (firstOccurrences l).Nodup := by
  induction l with
  | nil => simp [firstOccurrences]
  | cons x xs ih =>
    simp only [firstOccurrences, List.nodup_cons, List.mem_filter]
    exact ⟨by simp, ih.filter _⟩

theorem firstOccurrences_sublist (l : List String) : (firstOccurrences l).Sublist l := by
  induction l with
  | nil => simp [firstOccurrences]
  | cons x xs ih =>
    simp only [firstOccurrences]
    exact ((List.filter_sublist _).trans ih).cons₂ x

theorem firstOccurrences_filter_indexOf (p : String → Bool) (l : List String) :
    ((firstOccurrences (l.filter p)).map (fun s => l.indexOf s)).Pairwise (· < ·) := by
  induction l with
  | nil => simp [firstOccurrences]
  | cons x xs ih =>
    have hshift : ∀ q : String → Bool, (∀ y, q y = true → y ≠ x) →
        (((firstOccurrences (xs.filter p)).filter q).map
          (fun s => (x :: xs).indexOf s)).Pairwise (· < ·) := by
      intro q hq
      have h1 : (((firstOccurrences (xs.filter p)).filter q).map
          (fun s => xs.indexOf s)).Pairwise (· < ·) :=
        ih.sublist ((List.filter_sublist _).map _)
      rw [List.pairwise_map] at h1 ⊢
      refine h1.imp_of_mem ?_
      intro a b ha hb hab
      simp only [List.mem_filter] at ha hb
      rw [List.indexOf_cons_ne _ (Ne.symm (hq a ha.2)),
        List.indexOf_cons_ne _ (Ne.symm (hq b hb.2))]
      omega
    by_cases hx : p x = true
    · simp only [List.filter_cons, hx, if_true, firstOccurrences, List.map_cons,
        List.pairwise_cons, List.indexOf_cons_self]
      constructor
      · intro n hn
        simp only [List.mem_map, List.mem_filter] at hn
        obtain ⟨y, ⟨_, hy⟩, rfl⟩ := hn
        have hy2 : y ≠ x := by simpa using hy
        rw [List.indexOf_cons_ne _ (Ne.symm hy2)]
        omega
      · exact hshift _ (fun y hy => by simpa using hy)
    · simp only [List.filter_cons, hx, Bool.false_eq_true, if_false]
      have h2 := hshift p (fun y hy hyx => hx (hyx ▸ hy))
      have h3 : (firstOccurrences (xs.filter p)).filter p = firstOccurrences (xs.filter p) := by
        rw [List.filter_eq_self]
        intro a ha
        rw [mem_firstOccurrences, List.mem_filter] at ha
        exact ha.2
      rw [h3] at h2
      exact h2

theorem foldl_processLine (parse : String → Except Error URL) (g : Globals)
    (conds : List Condition) (lines : List String) (out : List String) :
    (lines.foldl (processLine parse g conds) ⟨out.reverse, out⟩).out =
      out ++ (firstOccurrences (lines.filter (lineMatches parse g conds))).filter
        (fun y => decide (y ∉ out)) := by
  induction lines generalizing out with
  | nil => simp [firstOccurrences]
  | cons x xs ih =>
    simp only [List.foldl_cons]
    by_cases hm : lineMatches parse g conds x = true
    · by_cases hs : x ∈ out
      · have hstep : processLine parse g conds ⟨out.reverse, out⟩ x = ⟨out.reverse, out⟩ := by
          unfold lineMatches at hm
          unfold processLine
          cases hp : parseURL parse x with
          | error e => simp [hp] at hm
          | ok u => simp [hp] at hm; simp [hm, hs]
        rw [hstep, ih]
        simp only [List.filter_cons, hm, if_true, firstOccurrences]
        simp only [hs, not_true_eq_false, decide_False, Bool.false_eq_true, if_false,
          List.filter_filter]
        congr 1
        apply List.filter_congr
        intro y _
        by_cases hy : y = x
        · subst hy; simp [hs]
        · simp [hy]
      · have hstep : processLine parse g conds ⟨out.reverse, out⟩ x =
            ⟨(out ++ [x]).reverse, out ++ [x]⟩ := by
          unfold lineMatches at hm
          unfold processLine
          cases hp : parseURL parse x with
          | error e => simp [hp] at hm
          | ok u => simp [hp] at hm; simp [hm, hs]
        rw [hstep, ih]
        simp only [List.filter_cons, hm, if_true, firstOccurrences]
        simp only [hs, not_false_eq_true, decide_True, if_true, List.filter_filter,
          List.append_assoc, List.singleton_append]
        congr 2
        apply List.filter_congr
        intro y _
        by_cases hy : y = x
        · subst hy; simp
        · simp [hy]
    · have hstep : processLine parse g conds ⟨out.reverse, out⟩ x = ⟨out.reverse, out⟩ := by
        unfold lineMatches at hm
        unfold processLine
        cases hp : parseURL parse x with
        | error e => rfl
        | ok u => simp [hp] at hm; simp [hm]
      rw [hstep, ih]
      simp only [List.filter_cons, hm, Bool.false_eq_true, if_false]

theorem processLines_eq (parse : String → Except Error URL) (g : Globals)
    (conds : List Condition) (lines : List String) :
    processLines parse g conds lines =
      firstOccurrences (lines.filter (lineMatches parse g conds)) := by
  have h := foldl_processLine parse g conds lines []
  simp only [List.reverse_nil, List.nil_append, List.not_mem_nil, not_false_eq_true,
    decide_True, List.filter_true] at h
  exact h

theorem hasSuffix_append (m p : String) : stringsHasSuffix (m ++ p) p = true := by
  unfold stringsHasSuffix
  rw [String.data_append, List.isSuffixOf_iff_suffix]
  exact List.suffix_append _ _

theorem trimSuffix_append (m p : String) : stringsTrimSuffix (m ++ p) p = m := by
  unfold stringsTrimSuffix
  rw [hasSuffix_append]
  simp [String.data_append]

theorem registry_lookup (g : Globals) (m : String)
    (hm : m ∈ (procMapEntries g).map Prod.fst) :
    stringsHasSuffix m ":not" = false ∧ ∃ f, procMap g m = some f := by
  simp only [procMapEntries, List.map_cons, List.map_nil, List.mem_cons, List.mem_singleton,
    List.not_mem_nil, or_false] at hm
  rcases hm with h | h | h | h | h | h | h | h | h | h | h | h | h | h <;> subst h <;>
    exact ⟨by decide, _, rfl⟩

theorem buildCondition_plain (compile : String → Option Regexp) (g : Globals)
    (m p : String) (re : Regexp) (f : urlProc) (hs : stringsHasSuffix m ":not" = false)
    (hf : procMap g m = some f) (hp : compile p = some re) :
    buildCondition compile g m p = .ok ⟨m, false, re⟩ := by
  simp [buildCondition, hs, hf, hp]

theorem buildCondition_not (compile : String → Option Regexp) (g : Globals)
    (m p : String) (re : Regexp) (f : urlProc)
    (hf : procMap g m = some f) (hp : compile p = some re) :
    buildCondition compile g (m ++ ":not") p = .ok ⟨m, true, re⟩ := by
  simp [buildCondition, hasSuffix_append, trimSuffix_append, hf, hp]

theorem setPath_scheme (u : URL) (p : String) (v : URL) (h : URL.setPath u p = .ok v) :
    v.Scheme = u.Scheme := by
  unfold URL.setPath at h
  split at h
  · cases h
  · cases h; rfl

theorem setFragment_scheme (u : URL) (p : String) (v : URL) (h : URL.setFragment u p = .ok v) :
    v.Scheme = u.Scheme := by
  unfold URL.setFragment at h
  split at h
  · cases h
  · cases h; rfl

theorem parseHier_scheme (u : URL) (rest : String) (v : URL) (h : parseHier u rest = .ok v) :
    v.Scheme = u.Scheme := by
  unfold parseHier at h
  split at h
  · cases h; rfl
  · split at h
    · cases h
    · split at h
      · simp only at h
        split at h
        · cases h
        · exact (setPath_scheme _ _ _ h).trans rfl
      · split at h
        · exact (setPath_scheme _ _ _ h).trans rfl
        · exact setPath_scheme _ _ _ h

theorem parseRest_scheme (u : URL) (rest : String) (v : URL) (h : parseRest u rest = .ok v) :
    v.Scheme = u.Scheme := by
  unfold parseRest at h
  split at h
  · exact (parseHier_scheme _ _ _ h).trans rfl
  · exact (parseHier_scheme _ _ _ h).trans rfl

theorem cutChars_append_of_not_mem (sep : Char) (pre l : List Char) (h : sep ∉ pre) :
    (cutChars sep (pre ++ l)).1 = pre ++ (cutChars sep l).1 := by
  induction pre with
  | nil => rfl
  | cons c cs ih =>
    simp only [List.mem_cons, not_or] at h
    simp only [List.cons_append, cutChars]
    rw [if_neg (Ne.symm h.1)]
    simp [ih h.2]

theorem parse_http_scheme (l : List Char) (v : URL)
    (h : parse ⟨'h' :: 't' :: 't' :: 'p' :: ':' :: l⟩ = .ok v) : v.Scheme = "http" := by
  unfold parse at h
  split at h
  · cases h
  · split at h
    · rename_i h2
      exact absurd (congrArg String.data h2) (by simp)
    · have hs : getScheme ⟨'h' :: 't' :: 't' :: 'p' :: ':' :: l⟩ = .ok ("http", ⟨l⟩) := by
        simp [getScheme, getSchemeChars, isAlpha, isDigit]
      rw [hs] at h
      simp only at h
      have := parseRest_scheme _ _ _ h
      rw [this]
      decide

theorem urlParse_http_scheme (raw : String) (v : URL)
    (h : url.Parse ("http://" ++ raw) = .ok v) : v.Scheme = "http" := by
  unfold url.Parse at h
  simp only at h
  have hcut : (stringsCut ("http://" ++ raw) '#').1 =
      ⟨'h' :: 't' :: 't' :: 'p' :: ':' :: ('/' :: '/' :: (cutChars '#' raw.data).1)⟩ := by
    unfold stringsCut
    simp only [String.data_append]
    rw [cutChars_append_of_not_mem '#' "http://".data raw.data (by decide)]
    rfl
  rw [hcut] at h
  split at h
  · cases h
  · rename_i u hu
    have hsch := parse_http_scheme _ _ hu
    split at h
    · cases h; exact hsch
    · split at h
      · cases h
      · rename_i u2 hu2
        cases h
        rw [setFragment_scheme _ _ _ hu2, hsch]

theorem parseURL_of_error (parse : String → Except Error URL) (raw : String) (e : Error)
    (h : parse raw = .error e) : parseURL parse raw = .error e := by
  simp [parseURL, h]

theorem parseURL_of_empty_scheme (parse : String → Except Error URL) (raw : String) (u : URL)
    (h : parse raw = .ok u) (hs : u.Scheme = "") :
    parseURL parse raw = parse ("http://" ++ raw) := by
  simp [parseURL, h, hs]

theorem parseURL_of_scheme (parse : String → Except Error URL) (raw : String) (u : URL)
    (h : parse raw = .ok u) (hs : u.Scheme ≠ "") : parseURL parse raw = .ok u := by
  simp [parseURL, h, hs]

theorem splitChars_ne_nil (sep : Char) (l : List Char) : splitChars sep l ≠ [] := by
  cases l with
  | nil => simp [splitChars]
  | cons c cs =>
    unfold splitChars
    split
    · simp
    · split <;> simp

theorem splitChars_cons (sep c : Char) (cs : List Char) :
    splitChars sep (c :: cs) =
      if c = sep then [] :: splitChars sep cs
      else
        match splitChars sep cs with
        | [] => [[c]]
        | p :: ps => (c :: p) :: ps := rfl

theorem getLastD_map {α β : Type} (f : α → β) (l : List α) (d : α) :
    (l.map f).getLastD (f d) = f (l.getLastD d) := by
  induction l generalizing d with
  | nil => rfl
  | cons a as ih => simp only [List.map_cons, List.getLastD_cons, ih]

theorem splitChars_of_not_mem (sep : Char) (l : List Char) (h : sep ∉ l) :
    splitChars sep l = [l] := by
  induction l with
  | nil => rfl
  | cons c cs ih =>
    simp only [List.mem_cons, not_or] at h
    unfold splitChars
    rw [if_neg (Ne.symm h.1), ih h.2]

theorem splitChars_length (sep : Char) (l : List Char) :
    1 < (splitChars sep l).length ↔ sep ∈ l := by
  induction l with
  | nil => simp [splitChars]
  | cons c cs ih =>
    unfold splitChars
    by_cases hc : c = sep
    · have := splitChars_ne_nil sep cs
      have hpos : 0 < (splitChars sep cs).length := List.length_pos.mpr this
      simp only [hc, if_true, List.length_cons, List.mem_cons, true_or, iff_true]
      omega
    · rw [if_neg hc]
      have hne : sep ≠ c := Ne.symm hc
      cases hsp : splitChars sep cs with
      | nil => exact absurd hsp (splitChars_ne_nil sep cs)
      | cons p ps =>
        rw [hsp] at ih
        simp only [List.length_cons, List.mem_cons, hne, false_or] at ih ⊢
        exact ih

theorem rtakeWhile_cons (p : Char → Bool) (c : Char) (cs : List Char) :
    (c :: cs).rtakeWhile p =
      if cs.all p then (if p c then c :: cs else cs) else cs.rtakeWhile p := by
  unfold List.rtakeWhile
  rw [List.reverse_cons, List.takeWhile_append]
  by_cases h : cs.all p = true
  · have h2 : ∀ a ∈ cs.reverse, p a = true := by
      intro a ha
      exact List.all_eq_true.mp h a (List.mem_reverse.mp ha)
    have h3 : cs.reverse.takeWhile p = cs.reverse := List.takeWhile_eq_self_iff.mpr h2
    rw [h3, h]
    by_cases hc : p c = true <;> simp [hc]
  · have h3 : (cs.reverse.takeWhile p).length ≠ cs.reverse.length := by
      intro hlen
      apply h
      have h4 : cs.reverse.takeWhile p = cs.reverse :=
        (List.takeWhile_prefix p).eq_of_length hlen
      rw [List.all_eq_true]
      intro a ha
      exact List.takeWhile_eq_self_iff.mp h4 a (List.mem_reverse.mpr ha)
    rw [if_neg h3]
    simp [h]

theorem splitChars_getLastD (sep : Char) (l : List Char) :
    (splitChars sep l).getLastD [] = l.rtakeWhile (fun c => decide (c ≠ sep)) := by
  induction l with
  | nil => simp [splitChars, List.rtakeWhile]
  | cons c cs ih =>
    rw [rtakeWhile_cons]
    by_cases hmem : sep ∈ cs
    · have hall : ¬ (cs.all (fun c => decide (c ≠ sep)) = true) := by
        rw [List.all_eq_true]
        intro h
        have := h sep hmem
        simp at this
      rw [if_neg hall, ← ih, splitChars_cons]
      have hlen := (splitChars_length sep cs).mpr hmem
      cases hsp : splitChars sep cs with
      | nil => exact absurd hsp (splitChars_ne_nil sep cs)
      | cons p ps =>
        rw [hsp] at hlen
        cases ps with
        | nil => simp at hlen
        | cons q qs =>
          split <;> simp [List.getLastD]
    · have hall : cs.all (fun c => decide (c ≠ sep)) = true := by
        rw [List.all_eq_true]
        intro a ha
        have : a ≠ sep := fun h => hmem (h ▸ ha)
        simpa using this
      rw [if_pos hall, splitChars_cons, splitChars_of_not_mem sep cs hmem]
      by_cases hc : c = sep
      · simp [hc, List.getLastD]
      · simp [hc, List.getLastD]

theorem stringsSplit_getLastD (sep : Char) (s : String) :
    (stringsSplit s sep).getLastD "" = afterLast sep s := by
  unfold stringsSplit afterLast
  rw [← splitChars_getLastD]
  exact getLastD_map String.mk (splitChars sep s.data) []

theorem stringsSplit_length (sep : Char) (s : String) :
    1 < (stringsSplit s sep).length ↔ sep ∈ s.data := by
  unfold stringsSplit
  rw [List.length_map]
  exact splitChars_length sep s.data

theorem ext_eq (u : URL) (re : Regexp) :
    ext u re =
      if afterLast '/' u.Path = "" then false
      else if '.' ∈ (afterLast '/' u.Path).data then
        re.MatchString (afterLast '.' (afterLast '/' u.Path))
      else false := by
  unfold ext
  simp only [stringsSplit_getLastD]
  have hlen : (stringsSplit u.Path '/').length ≠ 0 := by
    unfold stringsSplit
    rw [List.length_map]
    exact fun h => splitChars_ne_nil _ _ (List.length_eq_zero.mp h)
  by_cases h1 : afterLast '/' u.Path = ""
  · simp [h1]
  · simp only [hlen, h1, or_self, if_false, gt_iff_lt, stringsSplit_length]

theorem afterLast_of_suffix (sep : Char) (s : String)
    (h : stringsHasSuffix s (String.singleton sep) = true) : afterLast sep s = "" := by
  unfold stringsHasSuffix at h
  rw [List.isSuffixOf_iff_suffix] at h
  obtain ⟨pre, hpre⟩ := h
  unfold afterLast
  have h2 : s.data = pre ++ [sep] := hpre.symm
  rw [h2, List.rtakeWhile_concat_neg]
  simp

theorem splitChars_eq_splitOn (sep : Char) (l : List Char) :
    splitChars sep l = l.splitOn sep := by
  unfold List.splitOn
  induction l with
  | nil => rfl
  | cons c cs ih =>
    rw [splitChars_cons, List.splitOnP_cons, ih]
    by_cases hc : c = sep
    · simp [hc]
    · simp only [hc, if_false, beq_iff_eq]
      cases h : List.splitOnP (fun x => x == sep) cs with
      | nil => exact absurd h (List.splitOnP_ne_nil _ _)
      | cons p ps => rfl

theorem cutChars_eq (sep : Char) (l : List Char) :
    cutChars sep l =
      (l.takeWhile (fun c => decide (c ≠ sep)),
        (l.dropWhile (fun c => decide (c ≠ sep))).drop 1, l.contains sep) := by
  induction l with
  | nil => rfl
  | cons c cs ih =>
    unfold cutChars
    by_cases hc : c = sep
    · simp [hc]
    · have hc2 : (sep == c) = false := by simpa using Ne.symm hc
      simp only [hc, if_false, ih, ne_eq, not_false_eq_true, decide_True,
        List.takeWhile_cons_of_pos, List.dropWhile_cons_of_pos, List.contains_cons, hc2,
        Bool.false_or]

theorem cutChars_not_found (sep : Char) (l : List Char) (h : (cutChars sep l).2.2 = false) :
    (cutChars sep l).1 = l ∧ (cutChars sep l).2.1 = [] := by
  induction l with
  | nil => exact ⟨rfl, rfl⟩
  | cons c cs ih =>
    unfold cutChars at h ⊢
    by_cases hc : c = sep
    · simp [hc] at h
    · simp only [hc, if_false] at h ⊢
      exact ⟨by rw [(ih h).1], (ih h).2⟩

theorem splitChars_cut (sep : Char) (l : List Char) :
    splitChars sep l =
      (cutChars sep l).1 ::
        (if (cutChars sep l).2.2 = true then splitChars sep (cutChars sep l).2.1 else []) := by
  induction l with
  | nil => rfl
  | cons c cs ih =>
    rw [splitChars_cons]
    unfold cutChars
    by_cases hc : c = sep
    · simp [hc]
    · simp only [hc, if_false]
      rw [ih]

theorem queryLoop_eq_foldl {σ : Type} (body : σ → String → σ) (hbody : ∀ st, body st "" = st)
    (st : σ) (query : String) :
    queryLoop body st query = (stringsSplit query '&').foldl body st := by
  generalize hn : query.data.length = n
  induction n using Nat.strong_induction_on generalizing st query with
  | _ n ih =>
    rw [queryLoop]
    by_cases hq : query.data = []
    · rw [if_pos hq]
      unfold stringsSplit
      rw [hq]
      exact (hbody st).symm
    · rw [if_neg hq]
      have hlt := cutChars_after_lt '&' query.data hq
      rw [ih _ (by rw [← hn]; exact hlt) _ _ rfl]
      unfold stringsSplit stringsCut
      simp only
      conv => rhs; rw [splitChars_cut]
      by_cases hf : (cutChars '&' query.data).2.2 = true
      · rw [if_pos hf]
        rfl
      · rw [if_neg hf]
        have h2 := (cutChars_not_found '&' query.data (by simpa using hf)).2
        rw [h2]
        simp only [List.map_cons, List.map_nil, List.foldl_cons, List.foldl_nil]
        exact hbody _

theorem stringsSplit_eq_pairsOf (q : String) : stringsSplit q '&' = pairsOf q := by
  unfold stringsSplit pairsOf
  rw [splitChars_eq_splitOn]

theorem stringsCut_eq (p : String) :
    (stringsCut p '=').1 = pairKey p ∧ (stringsCut p '=').2.1 = pairValue p := by
  unfold stringsCut pairKey pairValue
  rw [cutChars_eq]
  exact ⟨rfl, rfl⟩

theorem parseQueryV2_eq_foldl (m : Values) (q : String) :
    parseQueryV2 m q = (pairsOf q).foldl parseQueryV2Step (m, none) := by
  unfold parseQueryV2
  rw [queryLoop_eq_foldl _ _ _ _, stringsSplit_eq_pairsOf]
  intro st
  rfl

theorem parseQuery_eq_foldl (st : Values × Option String) (q : String) :
    parseQuery st q = (pairsOf q).foldl parseQueryStep st := by
  unfold parseQuery
  rw [queryLoop_eq_foldl _ _ _ _, stringsSplit_eq_pairsOf]
  intro st
  rfl

/-- The map update of `parseQueryV2` for a recorded pair. -/
theorem parseQueryV2Step_fst (st : Values × Option String) (p : String) :
    (parseQueryV2Step st p).1 =
      if recordedPair p = true then Values.add st.1 (pairKey p) (pairValue p) else st.1 := by
  unfold parseQueryV2Step recordedPair stringsContains
  by_cases h1 : ';' ∈ p.data
  · simp [h1]
  · by_cases h2 : p = ""
    · simp [h1, h2]
    · simp [h1, h2, (stringsCut_eq p).1, (stringsCut_eq p).2]

theorem parseQueryV2Step_snd (st : Values × Option String) (p : String) :
    (parseQueryV2Step st p).2 =
      if p.data.contains ';' = true then some "invalid semicolon separator in query"
      else st.2 := by
  unfold parseQueryV2Step stringsContains
  by_cases h1 : ';' ∈ p.data
  · simp [h1]
  · by_cases h2 : p = ""
    · simp [h1, h2]
    · simp [h1, h2]

theorem foldl_parseQueryV2Step_fst (ps : List String) (st : Values × Option String) :
    (ps.foldl parseQueryV2Step st).1 =
      (ps.filter recordedPair).foldl (fun m p => Values.add m (pairKey p) (pairValue p)) st.1 := by
  induction ps generalizing st with
  | nil => rfl
  | cons p ps ih =>
    rw [List.foldl_cons, ih, parseQueryV2Step_fst, List.filter_cons]
    by_cases h : recordedPair p = true
    · simp [h]
    · simp [h]

theorem foldl_parseQueryV2Step_snd (ps : List String) (st : Values × Option String) :
    (ps.foldl parseQueryV2Step st).2 =
      if ps.any (fun p => p.data.contains ';') = true then
        some "invalid semicolon separator in query"
      else st.2 := by
  induction ps generalizing st with
  | nil => rfl
  | cons p ps ih =>
    rw [List.foldl_cons, ih, parseQueryV2Step_snd, List.any_cons]
    by_cases h1 : ';' ∈ p.data
    · by_cases h2 : ∃ x ∈ ps, ';' ∈ x.data <;> simp [h1, h2]
    · by_cases h2 : ∃ x ∈ ps, ';' ∈ x.data <;> simp [h1, h2]

theorem Values.get_add (m : Values) (k v k2 : String) :
    Values.get (Values.add m k v) k2 =
      if k = k2 then Values.get m k2 ++ [v] else Values.get m k2 := by
  induction m with
  | nil =>
    by_cases h : k = k2 <;> simp [Values.add, Values.get, h]
  | cons e rest ih =>
    obtain ⟨k1, vs⟩ := e
    unfold Values.add
    by_cases h1 : k1 = k
    · subst h1
      by_cases h : k1 = k2 <;> simp [Values.get, h]
    · rw [if_neg h1]
      by_cases h : k = k2
      · subst h
        simp [Values.get, h1, ih]
      · by_cases h3 : k1 = k2 <;> simp [Values.get, h3, ih, h]

theorem Values.keys_add (m : Values) (k v k2 : String) :
    k2 ∈ Values.keys (Values.add m k v) ↔ k2 = k ∨ k2 ∈ Values.keys m := by
  induction m with
  | nil => simp [Values.add, Values.keys]
  | cons e rest ih =>
    obtain ⟨k1, vs⟩ := e
    unfold Values.add
    by_cases h1 : k1 = k
    · subst h1
      simp [Values.keys]
    · rw [if_neg h1]
      simp only [Values.keys, List.map_cons, List.mem_cons] at ih ⊢
      rw [ih]
      tauto

theorem foldl_add_get (ps : List String) (m : Values) (k : String) :
    Values.get (ps.foldl (fun m p => Values.add m (pairKey p) (pairValue p)) m) k =
      Values.get m k ++
        ps.filterMap (fun p => if pairKey p = k then some (pairValue p) else none) := by
  induction ps generalizing m with
  | nil => simp
  | cons p ps ih =>
    rw [List.foldl_cons, ih, Values.get_add, List.filterMap_cons]
    by_cases h : pairKey p = k
    · simp [h]
    · simp [h]

theorem foldl_add_keys (ps : List String) (m : Values) (k : String) :
    k ∈ Values.keys (ps.foldl (fun m p => Values.add m (pairKey p) (pairValue p)) m) ↔
      k ∈ Values.keys m ∨ ∃ p ∈ ps, pairKey p = k := by
  induction ps generalizing m with
  | nil => simp
  | cons p ps ih =>
    rw [List.foldl_cons, ih, Values.keys_add]
    simp only [List.mem_cons, exists_eq_or_imp]
    constructor
    · rintro ((h | h) | h)
      · exact Or.inr (Or.inl h.symm)
      · exact Or.inl h
      · exact Or.inr (Or.inr h)
    · rintro (h | h | h)
      · exact Or.inl (Or.inr h)
      · exact Or.inl (Or.inl h.symm)
      · exact Or.inr h

theorem parseQueryV2_map (m : Values) (q : String) :
    (parseQueryV2 m q).1 =
      ((pairsOf q).filter recordedPair).foldl
        (fun m p => Values.add m (pairKey p) (pairValue p)) m := by
  rw [parseQueryV2_eq_foldl, foldl_parseQueryV2Step_fst]

theorem splitChars_no_sep (sep : Char) (l : List Char) :
    ∀ p ∈ splitChars sep l, sep ∉ p := by
  induction l with
  | nil => simp [splitChars]
  | cons c cs ih =>
    rw [splitChars_cons]
    by_cases hc : c = sep
    · simp only [hc, if_true, List.mem_cons]
      rintro p (rfl | hp)
      · simp
      · exact ih p hp
    · rw [if_neg hc]
      cases hsp : splitChars sep cs with
      | nil => exact absurd hsp (splitChars_ne_nil sep cs)
      | cons p0 ps =>
        rw [hsp] at ih
        simp only [List.mem_cons]
        rintro p (rfl | hp)
        · simp only [List.mem_cons, not_or]
          exact ⟨Ne.symm hc, ih p0 (by simp)⟩
        · exact ih p (by simp [hp])

theorem recordedPair_iff (p : String) :
    recordedPair p = true ↔ p ≠ "" ∧ ';' ∉ p.data := by
  simp [recordedPair]

theorem pairsOf_dropSemicolonPairs (q : String) :
    (pairsOf (dropSemicolonPairs q)).filter recordedPair = (pairsOf q).filter recordedPair := by
  unfold pairsOf dropSemicolonPairs
  simp only
  by_cases hF : (q.data.splitOn '&').filter (fun p => !p.contains ';') = []
  · rw [hF]
    have h1 : (List.map String.mk (List.splitOn '&' q.data)).filter recordedPair = [] := by
      rw [List.filter_eq_nil_iff]
      intro p hp
      rw [List.mem_map] at hp
      obtain ⟨l, hl, rfl⟩ := hp
      rw [List.filter_eq_nil_iff] at hF
      have := hF l hl
      rw [recordedPair_iff]
      have h2 : ';' ∈ l := by simpa using this
      exact fun h => h.2 h2
    rw [h1]
    rfl
  · rw [List.splitOn_intercalate _ _ _ hF]
    · rw [List.filter_map, List.filter_map, List.filter_filter]
      congr 1
      apply List.filter_congr
      intro l _
      simp only [Function.comp, recordedPair]
      cases h : l.contains ';' <;> simp [h]
    · intro l hl
      rw [List.mem_filter, ← splitChars_eq_splitOn] at hl
      exact splitChars_no_sep '&' q.data l hl.1

theorem pairsOf_dropSemicolonPairs_clean (q : String) :
    ∀ p ∈ pairsOf (dropSemicolonPairs q), ';' ∉ p.data := by
  unfold pairsOf dropSemicolonPairs
  simp only
  by_cases hF : (q.data.splitOn '&').filter (fun p => !p.contains ';') = []
  · rw [hF]
    intro p hp
    have hsplit : List.splitOn '&' (['&'].intercalate ([] : List (List Char))) = [[]] := rfl
    rw [hsplit] at hp
    have hp2 : p = "" := by simpa using hp
    rw [hp2]
    decide
  · rw [List.splitOn_intercalate _ _ _ hF]
    · intro p hp
      rw [List.mem_map] at hp
      obtain ⟨l, hl, rfl⟩ := hp
      rw [List.mem_filter] at hl
      simpa using hl.2
    · intro l hl
      rw [List.mem_filter, ← splitChars_eq_splitOn] at hl
      exact splitChars_no_sep '&' q.data l hl.1

theorem pairKey_eq_empty (p : String) :
    pairKey p = "" ↔ p = "" ∨ p.data.head? = some '=' := by
  unfold pairKey
  obtain ⟨l⟩ := p
  cases l with
  | nil => simp
  | cons c cs =>
    by_cases hc : c = '='
    · subst hc
      simp
    · have h1 : (String.mk (c :: cs) = "") = False := by
        apply eq_false
        intro h
        exact absurd (congrArg String.data h) (by simp)
      simp only [List.takeWhile_cons, ne_eq, hc, not_false_eq_true, decide_True, if_true,
        List.head?_cons, Option.some.injEq, h1, or_self, iff_false]
      intro h
      exact absurd (congrArg String.data h) (by simp)

theorem data_of_pairKey (p : String) : ∀ c ∈ (pairKey p).data, c ∈ p.data := by
  intro c hc
  exact (List.takeWhile_sublist _).subset hc

theorem data_of_pairValue (p : String) : ∀ c ∈ (pairValue p).data, c ∈ p.data := by
  intro c hc
  exact (((List.drop_sublist 1 _).trans (List.dropWhile_sublist _)).subset hc)

theorem any_eq_of_perm {α : Type} (p : α → Bool) (l1 l2 : List α) (h : l1.Perm l2) :
    l1.any p = l2.any p := by
  rw [Bool.eq_iff_iff, List.any_eq_true, List.any_eq_true]
  constructor
  · rintro ⟨x, hx, hp⟩
    exact ⟨x, h.mem_iff.mp hx, hp⟩
  · rintro ⟨x, hx, hp⟩
    exact ⟨x, h.mem_iff.mpr hx, hp⟩

theorem key_eq_any (g : Globals) (u : URL) (re : Regexp) :
    key g u re = (queryMap g u).any (fun kv => re.MatchString kv.1) := rfl

theorem value_eq_any (g : Globals) (u : URL) (re : Regexp) :
    value g u re = (queryMap g u).any (fun kv => kv.2.any (fun val => re.MatchString val)) := rfl

theorem keyPairs_eq_any (g : Globals) (u : URL) (re : Regexp) :
    keyPairs g u re =
      (queryMap g u).any
        (fun kv => kv.2.any (fun val => re.MatchString (kv.1 ++ "=" ++ val))) := rfl

theorem queryMap_of_empty (g : Globals) (u : URL) (h : u.RawQuery = "") : queryMap g u = [] := by
  unfold queryMap QueryV2 URL.Query
  rw [h, parseQueryV2_eq_foldl, parseQuery_eq_foldl]
  cases g.rawMode <;> rfl

theorem lookup_isSome_iff {β : Type} (l : List (String × β)) (k : String) :
    (l.lookup k).isSome = true ↔ k ∈ l.map Prod.fst := by
  induction l with
  | nil => simp
  | cons e es ih =>
    obtain ⟨a, b⟩ := e
    by_cases h : k = a
    · subst h
      simp [List.lookup]
    · have hb : (k == a) = false := by simpa using h
      simp only [List.lookup, hb, List.map_cons, List.mem_cons, h, false_or]
      exact ih

theorem procMap_isSome_iff (g : Globals) (m : String) :
    (procMap g m).isSome = true ↔ m ∈ registryNames := by
  unfold procMap
  rw [lookup_isSome_iff]
  rfl

theorem buildCondition_eq (compile : String → Option Regexp) (g : Globals) (t p : String) :
    buildCondition compile g t p =
      match procMap g (stringsTrimSuffix t ":not") with
      | none => .error ("Unknown mode specified: " ++ stringsTrimSuffix t ":not")
      | some _ =>
        match compile p with
        | none => .error ("Invalid regex for mode " ++ stringsTrimSuffix t ":not")
        | some re => .ok ⟨stringsTrimSuffix t ":not", stringsHasSuffix t ":not", re⟩ := by
  unfold buildCondition
  have hmode : (if stringsHasSuffix t ":not" = true then stringsTrimSuffix t ":not" else t) =
      stringsTrimSuffix t ":not" := by
    by_cases h : stringsHasSuffix t ":not" = true
    · rw [if_pos h]
    · rw [if_neg h]
      unfold stringsTrimSuffix
      rw [if_neg h]
  simp only [hmode]

theorem buildCondition_ok_iff (compile : String → Option Regexp) (g : Globals) (t p : String)
    (c : Condition) :
    buildCondition compile g t p = .ok c ↔
      stringsTrimSuffix t ":not" ∈ registryNames ∧ compile p = some c.Regex ∧
        c.Mode = stringsTrimSuffix t ":not" ∧ c.Negate = stringsHasSuffix t ":not" := by
  rw [buildCondition_eq, ← procMap_isSome_iff]
  cases hp : procMap g (stringsTrimSuffix t ":not") with
  | none => simp
  | some f =>
    cases hc : compile p with
    | none => simp
    | some re =>
      obtain ⟨m, n, r⟩ := c
      simp only [Except.ok.injEq, Condition.mk.injEq, Option.isSome_some, Option.some.injEq,
        true_and]
      constructor
      · rintro ⟨h1, h2, h3⟩
        exact ⟨h3, h1.symm, h2.symm⟩
      · rintro ⟨h1, h2, h3⟩
        exact ⟨h2.symm, h3.symm, h1⟩

theorem buildConditions_pair (compile : String → Option Regexp) (g : Globals)
    (t p : String) (rest : List String) (acc : List Condition) :
    buildConditions compile g (t :: p :: rest) acc =
      match buildCondition compile g t p with
      | .error e => .error e
      | .ok c => buildConditions compile g rest (acc ++ [c]) := rfl

theorem buildConditions_bad_pair (compile : String → Option Regexp) (g : Globals)
    (t p : String) (post : List String)
    (hbad : ∀ c, buildCondition compile g t p ≠ .ok c) :
    ∀ (pre : List String) (acc : List Condition), pre.length % 2 = 0 →
      (buildConditions compile g (pre ++ t :: p :: post) acc).toBool = false
  | [], acc, _ => by
    rw [List.nil_append, buildConditions_pair]
    cases hb : buildCondition compile g t p with
    | error e => rfl
    | ok c => exact absurd hb (hbad c)
  | [_], _, h => by simp at h
  | a :: b :: pre, acc, h => by
    rw [List.cons_append, List.cons_append, buildConditions_pair]
    cases hb : buildCondition compile g a b with
    | error e => rfl
    | ok c =>
      exact buildConditions_bad_pair compile g t p post hbad pre (acc ++ [c])
        (by simp only [List.length_cons] at h; omega)

theorem buildConditions_invariant (compile : String → Option Regexp) (g : Globals)
    (P : Condition → Prop)
    (hP : ∀ t p c, buildCondition compile g t p = .ok c → P c) :
    ∀ (args : List String) (acc conds : List Condition),
      buildConditions compile g args acc = .ok conds → (∀ c ∈ acc, P c) → ∀ c ∈ conds, P c
  | [], acc, conds, h, hacc => by
    have : acc = conds := by simpa [buildConditions] using h
    rw [← this]
    exact hacc
  | [_], acc, conds, h, hacc => by
    have : acc = conds := by simpa [buildConditions] using h
    rw [← this]
    exact hacc
  | t :: p :: rest, acc, conds, h, hacc => by
    rw [buildConditions_pair] at h
    cases hb : buildCondition compile g t p with
    | error e => rw [hb] at h; cases h
    | ok c =>
      rw [hb] at h
      refine buildConditions_invariant compile g P hP rest (acc ++ [c]) conds h ?_
      intro d hd
      rcases List.mem_append.mp hd with hd | hd
      · exact hacc d hd
      · rw [List.mem_singleton] at hd
        rw [hd]
        exact hP t p c hb

theorem processLine_eq (parse : String → Except Error URL) (g : Globals)
    (conds : List Condition) (st : StreamState) (s : String) :
    processLine parse g conds st s =
      if lineMatches parse g conds s = true ∧ s ∉ st.seen then
        ⟨s :: st.seen, st.out ++ [s]⟩
      else st := by
  unfold processLine lineMatches
  cases parseURL parse s with
  | error e => simp
  | ok u =>
    by_cases hm : matchConditions g conds u = true
    · by_cases hs : s ∈ st.seen <;> simp [hm, hs]
    · simp [hm]

theorem lineMatches_parses (parse : String → Except Error URL) (g : Globals)
    (conds : List Condition) (s : String) (h : lineMatches parse g conds s = true) :
    (parseURL parse s).toBool = true := by
  unfold lineMatches at h
  cases hp : parseURL parse s with
  | error e => rw [hp] at h; cases h
  | ok u => rfl

theorem foldl_processLine_seen (parse : String → Except Error URL) (g : Globals)
    (conds : List Condition) (lines : List String) (st : StreamState)
    (h : st.seen = st.out.reverse) :
    (lines.foldl (processLine parse g conds) st).seen =
      (lines.foldl (processLine parse g conds) st).out.reverse := by
  induction lines generalizing st with
  | nil => exact h
  | cons x xs ih =>
    rw [List.foldl_cons]
    apply ih
    rw [processLine_eq]
    split
    · simp [h]
    · exact h

theorem firstOccurrences_of_nodup (l : List String) (h : l.Nodup) : firstOccurrences l = l := by
  induction l with
  | nil => rfl
  | cons x xs ih =>
    rw [List.nodup_cons] at h
    simp only [firstOccurrences, ih h.2]
    congr 1
    rw [List.filter_eq_self]
    intro a ha
    have : a ≠ x := fun hax => h.1 (hax ▸ ha)
    simpa using this

theorem Values.count_add (m : Values) (k v : String) :
    Values.count (Values.add m k v) = Values.count m + 1 := by
  induction m with
  | nil => simp [Values.add, Values.count]
  | cons e rest ih =>
    obtain ⟨k1, vs⟩ := e
    unfold Values.add
    by_cases h : k1 = k
    · rw [if_pos h]
      simp only [Values.count, List.map_cons, List.sum_cons, List.length_append,
        List.length_singleton]
      omega
    · rw [if_neg h]
      simp only [Values.count, List.map_cons, List.sum_cons] at ih ⊢
      rw [ih]
      omega

theorem foldl_add_count (ps : List String) (m : Values) :
    Values.count (ps.foldl (fun m p => Values.add m (pairKey p) (pairValue p)) m) =
      Values.count m + ps.length := by
  induction ps generalizing m with
  | nil => simp
  | cons p ps ih =>
    rw [List.foldl_cons, ih, Values.count_add, List.length_cons]
    omega

theorem queryLoop_step {σ : Type} (body : σ → String → σ) (st : σ) (q : String)
    (h : q.data ≠ []) :
    queryLoop body st q =
      queryLoop body (body st (stringsCut q '&').1) (stringsCut q '&').2.1 := by
  rw [queryLoop, if_neg h]

/-! ## The claims -/

/-- C1: for a line that parses, the decision of the short-circuit loop is the
conjunction of the conditions' results (the predicate's result, inverted when
the condition is negated); with two conditions the line is emitted iff both
hold, and dropping a condition that alone failed makes the line pass. -/
theorem match_decision_is_conjunction (parse : String → Except Error URL) (g : Globals)
    (str : String) (u : URL) (hparse : parseURL parse str = .ok u) :
    (∀ conds, matchConditions g conds u = true ↔ ∀ c ∈ conds, specEvaluate g c u = true) ∧
    (∀ conds, lineMatches parse g conds str = conds.all (fun c => specEvaluate g c u)) ∧
    (∀ c1 c2 lines, str ∈ processLines parse g [c1, c2] lines ↔
      str ∈ lines ∧ specEvaluate g c1 u = true ∧ specEvaluate g c2 u = true) ∧
    (∀ pre c post, (∀ d ∈ pre ++ post, specEvaluate g d u = true) →
      specEvaluate g c u = false →
      matchConditions g (pre ++ c :: post) u = false ∧
        matchConditions g (pre ++ post) u = true) := by
  have hline : ∀ conds, lineMatches parse g conds str = conds.all (fun c => specEvaluate g c u) := by
    intro conds
    unfold lineMatches
    rw [hparse]
    exact matchConditions_eq_all g conds u
  refine ⟨?_, hline, ?_, ?_⟩
  · intro conds
    rw [matchConditions_eq_all, List.all_eq_true]
  · intro c1 c2 lines
    rw [processLines_eq, mem_firstOccurrences, List.mem_filter, hline]
    simp
  · intro pre c post hall hc
    rw [matchConditions_eq_all, matchConditions_eq_all]
    constructor
    · rw [← Bool.not_eq_true, List.all_eq_true]
      intro h
      have := h c (by simp)
      rw [hc] at this
      exact Bool.false_ne_true this
    · rw [List.all_eq_true]
      exact hall

/-- C2: the output is the matching lines of the input with every occurrence
after the first removed: a sublist of the input (each emitted line is an input
line, verbatim and in input order), without repetition, holding exactly the
matching lines, in the order of their first occurrences; a schemeless line is
emitted as it was read, not as the prefixed URL that was parsed. -/
theorem output_is_first_occurrences (parse : String → Except Error URL) (g : Globals)
    (conds : List Condition) (lines : List String) :
    processLines parse g conds lines =
        firstOccurrences (lines.filter (lineMatches parse g conds)) ∧
      (processLines parse g conds lines).Sublist lines ∧
      (processLines parse g conds lines).Nodup ∧
      (∀ s, s ∈ processLines parse g conds lines ↔
        s ∈ lines ∧ lineMatches parse g conds s = true) ∧
      ((processLines parse g conds lines).map (fun s => lines.indexOf s)).Pairwise (· < ·) ∧
      processLines url.Parse g [] ["example.com/path", "b.example/x", "example.com/path"] =
        ["example.com/path", "b.example/x"] := by
  rw [processLines_eq]
  refine ⟨rfl, ?_, firstOccurrences_nodup _, ?_, firstOccurrences_filter_indexOf _ _, ?_⟩
  · exact (firstOccurrences_sublist _).trans (List.filter_sublist _)
  · intro s
    rw [mem_firstOccurrences, List.mem_filter]
  · rfl

theorem match_decision_is_conjunction_witness :
    parseURL url.Parse "http://a/x.js" =
        .ok ⟨"http", "", none, "a", "/x.js", "", false, false, "", "", ""⟩ ∧
      lineMatches url.Parse ⟨⟨id, id, id⟩, false⟩
          [⟨"ext", false, literalRegexp "js"⟩, ⟨"scheme", true, literalRegexp "https"⟩]
          "http://a/x.js" =
        [(⟨"ext", false, literalRegexp "js"⟩ : Condition),
          ⟨"scheme", true, literalRegexp "https"⟩].all
          (fun c => specEvaluate ⟨⟨id, id, id⟩, false⟩ c
            ⟨"http", "", none, "a", "/x.js", "", false, false, "", "", ""⟩) :=
  ⟨rfl,
    (match_decision_is_conjunction url.Parse ⟨⟨id, id, id⟩, false⟩ "http://a/x.js"
      ⟨"http", "", none, "a", "/x.js", "", false, false, "", "", ""⟩ rfl).2.1
      [⟨"ext", false, literalRegexp "js"⟩, ⟨"scheme", true, literalRegexp "https"⟩]⟩

/-- C3: for a registry mode `m` and a pattern that compiles, the condition built
from `m:not` evaluates on every URL to the negation of the condition built from
`m`; so over any input the lines passing the negated condition are the lines
that parse and do not pass the plain one. -/
theorem not_suffix_negates (compile : String → Option Regexp) (g : Globals)
    (m p : String) (re : Regexp) (hm : m ∈ (procMapEntries g).map Prod.fst)
    (hp : compile p = some re) :
    ∃ c cn, buildCondition compile g m p = .ok c ∧
      buildCondition compile g (m ++ ":not") p = .ok cn ∧
      (∀ u, matchConditions g [cn] u = !matchConditions g [c] u) ∧
      (∀ parse lines s, s ∈ processLines parse g [cn] lines ↔
        s ∈ lines ∧ (parseURL parse s).toBool = true ∧ s ∉ processLines parse g [c] lines) ∧
      (∀ parse lines, processLines parse g [cn] lines =
        firstOccurrences (lines.filter
          (fun s => (parseURL parse s).toBool && !lineMatches parse g [c] s))) := by
  obtain ⟨hs, f, hf⟩ := registry_lookup g m hm
  have hneg : ∀ u, matchConditions g [(⟨m, true, re⟩ : Condition)] u =
      !matchConditions g [(⟨m, false, re⟩ : Condition)] u := by
    intro u
    simp only [matchConditions, hf]
    cases f u re <;> rfl
  have hline : ∀ parse s, lineMatches parse g [(⟨m, true, re⟩ : Condition)] s =
      ((parseURL parse s).toBool && !lineMatches parse g [(⟨m, false, re⟩ : Condition)] s) := by
    intro parse s
    unfold lineMatches
    cases parseURL parse s with
    | error e => rfl
    | ok u => simp [Except.toBool, hneg]
  refine ⟨⟨m, false, re⟩, ⟨m, true, re⟩, buildCondition_plain compile g m p re f hs hf hp,
    buildCondition_not compile g m p re f hf hp, hneg, ?_, ?_⟩
  · intro parse lines s
    rw [processLines_eq, processLines_eq, mem_firstOccurrences, mem_firstOccurrences,
      List.mem_filter, List.mem_filter, hline]
    constructor
    · rintro ⟨h1, h2⟩
      simp only [Bool.and_eq_true, Bool.not_eq_true'] at h2
      exact ⟨h1, h2.1, fun h => by rw [h2.2] at h; exact Bool.false_ne_true h.2⟩
    · rintro ⟨h1, h2, h3⟩
      refine ⟨h1, ?_⟩
      simp only [Bool.and_eq_true, Bool.not_eq_true']
      refine ⟨h2, ?_⟩
      cases hl : lineMatches parse g [(⟨m, false, re⟩ : Condition)] s
      · rfl
      · exact absurd ⟨h1, hl⟩ h3
  · intro parse lines
    rw [processLines_eq]
    congr 1
    apply List.filter_congr
    intro s _
    exact hline parse s

theorem not_suffix_negates_witness :
    ∃ c cn, buildCondition (fun p => some (literalRegexp p)) ⟨⟨id, id, id⟩, false⟩ "ext" "css" = .ok c ∧
      buildCondition (fun p => some (literalRegexp p)) ⟨⟨id, id, id⟩, false⟩ ("ext" ++ ":not") "css"
        = .ok cn ∧
      (∀ u, matchConditions ⟨⟨id, id, id⟩, false⟩ [cn] u =
        !matchConditions ⟨⟨id, id, id⟩, false⟩ [c] u) ∧
      (∀ parse lines s, s ∈ processLines parse ⟨⟨id, id, id⟩, false⟩ [cn] lines ↔
        s ∈ lines ∧ (parseURL parse s).toBool = true ∧
          s ∉ processLines parse ⟨⟨id, id, id⟩, false⟩ [c] lines) ∧
      (∀ parse lines, processLines parse ⟨⟨id, id, id⟩, false⟩ [cn] lines =
        firstOccurrences (lines.filter
          (fun s => (parseURL parse s).toBool &&
            !lineMatches parse ⟨⟨id, id, id⟩, false⟩ [c] s))) :=
  not_suffix_negates (fun p => some (literalRegexp p)) ⟨⟨id, id, id⟩, false⟩ "ext" "css"
    (literalRegexp "css") (by decide) rfl

/-- C4, as stated, fails: the standard parse of `1.2.3.4:80` fails (a colon in
the first path segment), the parse of `http://1.2.3.4:80` succeeds, and
`parseURL` returns the first error without trying the prefixed text. -/
theorem parseURL_no_retry_after_failure :
    url.Parse "1.2.3.4:80" =
        .error ⟨"parse", "1.2.3.4:80", "first path segment in URL cannot contain colon"⟩ ∧
      (url.Parse ("http://" ++ "1.2.3.4:80")).toBool = true ∧
      parseURL url.Parse "1.2.3.4:80" =
        .error ⟨"parse", "1.2.3.4:80", "first path segment in URL cannot contain colon"⟩ ∧
      ¬ (∀ raw, (url.Parse raw).toBool = false →
          parseURL url.Parse raw = url.Parse ("http://" ++ raw)) := by
  refine ⟨rfl, rfl, rfl, ?_⟩
  intro h
  have h1 := h "1.2.3.4:80" rfl
  have h2 : (parseURL url.Parse "1.2.3.4:80").toBool = false := rfl
  rw [h1] at h2
  exact absurd h2 (by decide)

/-- C4, amended: when the standard parse fails, `parseURL` returns that error and
does not retry; the parse of `"http://" + raw` is tried, and its result returned,
when the standard parse succeeds with an empty scheme; so `parseURL` fails
exactly when the standard parse fails, or yields an empty scheme and the
prefixed parse fails. -/
theorem parseURL_error_cases (parse : String → Except Error URL) (raw : String) :
    (∀ e, parse raw = .error e → parseURL parse raw = .error e) ∧
      (∀ u, parse raw = .ok u → u.Scheme = "" →
        parseURL parse raw = parse ("http://" ++ raw)) ∧
      ((parseURL parse raw).toBool = false ↔
        (parse raw).toBool = false ∨
          ∃ u, parse raw = .ok u ∧ u.Scheme = "" ∧
            (parse ("http://" ++ raw)).toBool = false) := by
  refine ⟨parseURL_of_error parse raw, parseURL_of_empty_scheme parse raw, ?_⟩
  cases h : parse raw with
  | error e =>
    rw [parseURL_of_error parse raw e h]
    simp [Except.toBool]
  | ok u =>
    by_cases hs : u.Scheme = ""
    · rw [parseURL_of_empty_scheme parse raw u h hs]
      simp [Except.toBool, hs]
    · rw [parseURL_of_scheme parse raw u h hs]
      simp [Except.toBool, hs]

/-- C5, as stated, fails: the standard parse of `a b` succeeds with an empty
scheme, and `parseURL` fails on it, because `http://a b` has a space in its
host. -/
theorem parseURL_schemeless_can_fail :
    url.Parse "a b" = .ok ⟨"", "", none, "", "a b", "a b", false, false, "", "", ""⟩ ∧
      parseURL url.Parse "a b" =
        .error ⟨"parse", "http://a b", "invalid character   in host name"⟩ := by
  exact ⟨rfl, rfl⟩

/-- C5, amended: when the standard parse yields an empty scheme, `parseURL`
returns the result of parsing `"http://" + raw`; whenever that succeeds, as it
does for `example.com/path`, the URL has scheme `http` and the scheme mode
matches the pattern `^http$`. -/
theorem parseURL_schemeless (raw : String) (u : URL) (h : url.Parse raw = .ok u)
    (hs : u.Scheme = "") :
    parseURL url.Parse raw = url.Parse ("http://" ++ raw) ∧
      (∀ v, parseURL url.Parse raw = .ok v →
        v.Scheme = "http" ∧ scheme v (anchoredRegexp "http") = true) ∧
      parseURL url.Parse "example.com/path" =
        .ok ⟨"http", "", none, "example.com", "/path", "", false, false, "", "", ""⟩ := by
  have h1 := parseURL_of_empty_scheme url.Parse raw u h hs
  refine ⟨h1, ?_, rfl⟩
  intro v hv
  rw [h1] at hv
  have hv2 := urlParse_http_scheme raw v hv
  refine ⟨hv2, ?_⟩
  simp [scheme, anchoredRegexp, hv2]

theorem parseURL_schemeless_witness :
    parseURL url.Parse "example.com/path" = url.Parse ("http://" ++ "example.com/path") ∧
      ∀ v, parseURL url.Parse "example.com/path" = .ok v →
        v.Scheme = "http" ∧ scheme v (anchoredRegexp "http") = true :=
  ⟨(parseURL_schemeless "example.com/path"
      ⟨"", "", none, "", "example.com/path", "", false, false, "", "", ""⟩ rfl rfl).1,
    (parseURL_schemeless "example.com/path"
      ⟨"", "", none, "", "example.com/path", "", false, false, "", "", ""⟩ rfl rfl).2.1⟩

/-- C6: `ext` is true exactly when the last `/`-delimited segment of the path is
not empty, holds a `.`, and the regex matches the text after the segment's last
`.`; `/a/b/file.tar.gz` is tested as `gz`, and `/a/b/noext`, the empty path and
every path ending in `/` give false for every regex. -/
theorem ext_tests_last_extension (u : URL) (re : Regexp) :
    (ext u re = true ↔
        afterLast '/' u.Path ≠ "" ∧ '.' ∈ (afterLast '/' u.Path).data ∧
          re.MatchString (afterLast '.' (afterLast '/' u.Path)) = true) ∧
      (∀ v : URL, v.Path = "/a/b/file.tar.gz" → ext v re = re.MatchString "gz") ∧
      (∀ v : URL, v.Path = "/a/b/noext" → ext v re = false) ∧
      (∀ v : URL, v.Path = "" → ext v re = false) ∧
      (∀ v : URL, stringsHasSuffix v.Path "/" = true → ext v re = false) := by
  refine ⟨?_, ?_, ?_, ?_, ?_⟩
  · rw [ext_eq]
    by_cases h1 : afterLast '/' u.Path = ""
    · simp [h1]
    · by_cases h2 : '.' ∈ (afterLast '/' u.Path).data
      · simp [h1, h2]
      · simp [h1, h2]
  · intro v hv
    rw [ext_eq, hv]
    rfl
  · intro v hv
    rw [ext_eq, hv]
    rfl
  · intro v hv
    rw [ext_eq, hv]
    rfl
  · intro v hv
    rw [ext_eq, afterLast_of_suffix '/' v.Path hv]
    rfl

/-- C7, as stated, fails: the pair `=value` is not empty, so it is recorded, under
the empty key. -/
theorem rawQuery_has_empty_key :
    QueryV2 ⟨"http", "", none, "h", "/", "", false, false, "=value", "", ""⟩ =
        [("", ["value"])] ∧
      "" ∈ Values.keys (parseQueryV2 [] "=value").1 := by
  have h : (parseQueryV2 [] "=value").1 = [("", ["value"])] := by
    rw [parseQueryV2_eq_foldl]
    rfl
  refine ⟨h, ?_⟩
  rw [h]
  decide

/-- C7, amended: the keys of the map produced by the raw query parser are the
texts before the first `=` of the pairs that are not empty and hold no `;`;
empty pairs are skipped entirely, and the map has an entry under the empty key
exactly when some pair without `;` begins with `=`. -/
theorem rawQuery_keys (q : String) :
    (∀ k, k ∈ Values.keys (parseQueryV2 [] q).1 ↔
        ∃ p ∈ pairsOf q, p ≠ "" ∧ ';' ∉ p.data ∧ pairKey p = k) ∧
      ("" ∈ Values.keys (parseQueryV2 [] q).1 ↔
        ∃ p ∈ pairsOf q, ';' ∉ p.data ∧ p.data.head? = some '=') ∧
      (parseQueryV2 [] "a=1&&b=2&").1 = [("a", ["1"]), ("b", ["2"])] := by
  have hkeys : ∀ k, k ∈ Values.keys (parseQueryV2 [] q).1 ↔
      ∃ p ∈ pairsOf q, p ≠ "" ∧ ';' ∉ p.data ∧ pairKey p = k := by
    intro k
    rw [parseQueryV2_map, foldl_add_keys]
    simp only [Values.keys, List.map_nil, List.not_mem_nil, false_or, List.mem_filter,
      recordedPair_iff]
    constructor
    · rintro ⟨p, ⟨hp, h1, h2⟩, h3⟩
      exact ⟨p, hp, h1, h2, h3⟩
    · rintro ⟨p, hp, h1, h2, h3⟩
      exact ⟨p, ⟨hp, h1, h2⟩, h3⟩
  refine ⟨hkeys, ?_, ?_⟩
  · rw [hkeys]
    constructor
    · rintro ⟨p, hp, h1, h2, h3⟩
      rcases (pairKey_eq_empty p).mp h3 with h | h
      · exact absurd h h1
      · exact ⟨p, hp, h2, h⟩
    · rintro ⟨p, hp, h2, h⟩
      refine ⟨p, hp, ?_, h2, (pairKey_eq_empty p).mpr (Or.inr h)⟩
      intro h0
      rw [h0] at h
      exact absurd h (by decide)
  · rw [parseQueryV2_eq_foldl]
    rfl

/-- C8: `parseQueryV2` returns an error exactly when some `&`-separated pair
holds a `;`; the map is the one obtained from the query with those pairs
deleted, no key or value in it holds a `;`, and since `QueryV2` drops the
error, the predicates `key`, `value` and `keyPairs` answer in raw mode as they
do on the query with those pairs deleted; every pair that is not empty and
holds no `;` is still recorded: its value is stored under its key. -/
theorem rawQuery_semicolon_pairs (m : Values) (q : String) :
    ((parseQueryV2 m q).2 ≠ none ↔ ∃ p ∈ pairsOf q, ';' ∈ p.data) ∧
      (parseQueryV2 m q).1 = (parseQueryV2 m (dropSemicolonPairs q)).1 ∧
      (parseQueryV2 m (dropSemicolonPairs q)).2 = none ∧
      (∀ k ∈ Values.keys (parseQueryV2 [] q).1, ';' ∉ k.data) ∧
      (∀ k, ∀ v ∈ Values.get (parseQueryV2 [] q).1 k, ';' ∉ v.data) ∧
      (∀ (g : Globals) (u : URL) (re : Regexp), g.rawMode = true → u.RawQuery = q →
        key g u re = key g { u with RawQuery := dropSemicolonPairs q } re ∧
        value g u re = value g { u with RawQuery := dropSemicolonPairs q } re ∧
        keyPairs g u re = keyPairs g { u with RawQuery := dropSemicolonPairs q } re) ∧
      (∀ p ∈ pairsOf q, p ≠ "" → ';' ∉ p.data →
        pairKey p ∈ Values.keys (parseQueryV2 m q).1 ∧
          pairValue p ∈ Values.get (parseQueryV2 m q).1 (pairKey p)) ∧
      (parseQueryV2 [] "a=1&b;=2&c=3&a=4").1 = [("a", ["1", "4"]), ("c", ["3"])] := by
  have hmap : ∀ m0, (parseQueryV2 m0 q).1 = (parseQueryV2 m0 (dropSemicolonPairs q)).1 := by
    intro m0
    rw [parseQueryV2_map, parseQueryV2_map, pairsOf_dropSemicolonPairs]
  refine ⟨?_, hmap m, ?_, ?_, ?_, ?_, ?_, ?_⟩
  · rw [parseQueryV2_eq_foldl, foldl_parseQueryV2Step_snd]
    by_cases h : ∃ p ∈ pairsOf q, ';' ∈ p.data
    · simp [h]
    · simp [h]
  · rw [parseQueryV2_eq_foldl, foldl_parseQueryV2Step_snd, if_neg]
    rw [List.any_eq_true]
    rintro ⟨p, hp, h⟩
    exact pairsOf_dropSemicolonPairs_clean q p hp (by simpa using h)
  · intro k hk
    rw [parseQueryV2_map, foldl_add_keys] at hk
    simp only [Values.keys, List.map_nil, List.not_mem_nil, false_or, List.mem_filter,
      recordedPair_iff] at hk
    obtain ⟨p, ⟨_, _, h2⟩, rfl⟩ := hk
    exact fun h => h2 (data_of_pairKey p _ h)
  · intro k v hv
    rw [parseQueryV2_map, foldl_add_get] at hv
    simp only [Values.get, List.nil_append, List.mem_filterMap, List.mem_filter,
      recordedPair_iff] at hv
    obtain ⟨p, ⟨_, _, h2⟩, h3⟩ := hv
    split at h3
    · cases h3
      exact fun h => h2 (data_of_pairValue p _ h)
    · cases h3
  · intro g u re hraw hq
    subst hq
    simp only [key, value, keyPairs, hraw, if_true, QueryV2]
    rw [hmap []]
    exact ⟨rfl, rfl, rfl⟩
  · intro p hp hne hsemi
    have hrec : p ∈ (pairsOf q).filter recordedPair :=
      List.mem_filter.mpr ⟨hp, (recordedPair_iff p).mpr ⟨hne, hsemi⟩⟩
    rw [parseQueryV2_map]
    constructor
    · rw [foldl_add_keys]
      exact Or.inr ⟨p, hrec, rfl⟩
    · rw [foldl_add_get, List.mem_append]
      refine Or.inr (List.mem_filterMap.mpr ⟨p, hrec, ?_⟩)
      rw [if_pos rfl]
  · rw [parseQueryV2_eq_foldl]
    rfl

/-- C9: the values stored under a key `k` are, in arrival order, the texts after
the first `=` (empty when there is none) of the pairs that are not empty, hold
no `;`, and whose text before the first `=` is `k`; keys and values are copied
as they are, with no percent-decoding and no `+` translation. -/
theorem rawQuery_values_in_order (q k : String) :
    Values.get (parseQueryV2 [] q).1 k =
        ((pairsOf q).filter recordedPair).filterMap
          (fun p => if pairKey p = k then some (pairValue p) else none) ∧
      (∀ p : String, '=' ∉ p.data → pairKey p = p ∧ pairValue p = "") ∧
      (parseQueryV2 [] "a=%2F+b&c&a%20=x=y&a=x%20y").1 =
        [("a", ["%2F+b", "x%20y"]), ("c", [""]), ("a%20", ["x=y"])] := by
  refine ⟨?_, ?_, ?_⟩
  · rw [parseQueryV2_map, foldl_add_get]
    rfl
  · intro p hp
    have hall : ∀ c ∈ p.data, (fun c => decide (c ≠ '=')) c = true := by
      intro c hc
      have : c ≠ '=' := fun h => hp (h ▸ hc)
      simpa using this
    unfold pairKey pairValue
    rw [List.takeWhile_eq_self_iff.mpr hall, List.dropWhile_eq_nil_iff.mpr hall]
    exact ⟨rfl, rfl⟩
  · rw [parseQueryV2_eq_foldl]
    rfl

/-- C10: on a URL whose raw query is `a=%2F`, with raw mode off the value mode
matches the pattern `/` and not the pattern `%2F` (the value is decoded to `/`);
with raw mode on it matches `%2F` and not `/` (the value is the literal text). -/
theorem value_mode_decoding (ex : Parser) (u : URL) (h : u.RawQuery = "a=%2F") :
    value ⟨ex, false⟩ u (literalRegexp "/") = true ∧
      value ⟨ex, false⟩ u (literalRegexp "%2F") = false ∧
      value ⟨ex, true⟩ u (literalRegexp "/") = false ∧
      value ⟨ex, true⟩ u (literalRegexp "%2F") = true ∧
      u.Query = [("a", ["/"])] ∧ QueryV2 u = [("a", ["%2F"])] := by
  have hq : u.Query = [("a", ["/"])] := by
    unfold URL.Query
    rw [h, parseQuery_eq_foldl]
    rfl
  have hq2 : QueryV2 u = [("a", ["%2F"])] := by
    unfold QueryV2
    rw [h, parseQueryV2_eq_foldl]
    rfl
  refine ⟨?_, ?_, ?_, ?_, hq, hq2⟩
  · simp only [value, Bool.false_eq_true, if_false, hq]
    rfl
  · simp only [value, Bool.false_eq_true, if_false, hq]
    rfl
  · simp only [value, if_true, hq2]
    rfl
  · simp only [value, if_true, hq2]
    rfl

theorem value_mode_decoding_witness :
    url.Parse "http://example.com/?a=%2F" =
        .ok ⟨"http", "", none, "example.com", "/", "", false, false, "a=%2F", "", ""⟩ ∧
      value ⟨⟨id, id, id⟩, false⟩
        ⟨"http", "", none, "example.com", "/", "", false, false, "a=%2F", "", ""⟩
        (literalRegexp "/") = true ∧
      value ⟨⟨id, id, id⟩, true⟩
        ⟨"http", "", none, "example.com", "/", "", false, false, "a=%2F", "", ""⟩
        (literalRegexp "/") = false :=
  ⟨rfl,
    (value_mode_decoding ⟨id, id, id⟩
      ⟨"http", "", none, "example.com", "/", "", false, false, "a=%2F", "", ""⟩ rfl).1,
    (value_mode_decoding ⟨id, id, id⟩
      ⟨"http", "", none, "example.com", "/", "", false, false, "a=%2F", "", ""⟩ rfl).2.2.1⟩

/-- C11: `key` is true iff the regex matches some key of the query map, `value`
iff it matches some value of some entry, `keyPairs` iff it matches some
`key=value` text of an entry; so all three are false on an empty map, for every
regex, and the answers are the same for every order of iteration over the map. -/
theorem query_modes_exists_match (g : Globals) (u : URL) (re : Regexp) :
    (key g u re = true ↔ ∃ kv ∈ queryMap g u, re.MatchString kv.1 = true) ∧
      (value g u re = true ↔ ∃ kv ∈ queryMap g u, ∃ v ∈ kv.2, re.MatchString v = true) ∧
      (keyPairs g u re = true ↔
        ∃ kv ∈ queryMap g u, ∃ v ∈ kv.2, re.MatchString (kv.1 ++ "=" ++ v) = true) ∧
      (queryMap g u = [] →
        key g u re = false ∧ value g u re = false ∧ keyPairs g u re = false) ∧
      (u.RawQuery = "" →
        key g u (literalRegexp "") = false ∧ value g u (literalRegexp "") = false ∧
          keyPairs g u (literalRegexp "") = false) ∧
      (∀ q : Values, q.Perm (queryMap g u) →
        q.any (fun kv => re.MatchString kv.1) = key g u re ∧
        q.any (fun kv => kv.2.any (fun val => re.MatchString val)) = value g u re ∧
        q.any (fun kv => kv.2.any (fun val => re.MatchString (kv.1 ++ "=" ++ val))) =
          keyPairs g u re) := by
  refine ⟨?_, ?_, ?_, ?_, ?_, ?_⟩
  · rw [key_eq_any, List.any_eq_true]
  · rw [value_eq_any, List.any_eq_true]
    simp only [List.any_eq_true]
  · rw [keyPairs_eq_any, List.any_eq_true]
    simp only [List.any_eq_true]
  · intro h
    rw [key_eq_any, value_eq_any, keyPairs_eq_any, h]
    exact ⟨rfl, rfl, rfl⟩
  · intro h
    rw [key_eq_any, value_eq_any, keyPairs_eq_any, queryMap_of_empty g u h]
    exact ⟨rfl, rfl, rfl⟩
  · intro q hq
    rw [key_eq_any, value_eq_any, keyPairs_eq_any]
    exact ⟨any_eq_of_perm _ _ _ hq, any_eq_of_perm _ _ _ hq, any_eq_of_perm _ _ _ hq⟩

/-- C12: building a condition from a mode token `t` and a pattern `p` succeeds
exactly when `t` without one trailing `:not` is one of the 14 registry names
and `p` compiles; the condition then has that base mode, the compiled regex,
and `Negate` set iff `t` ended in `:not`; `ext:not:not`, `:not` and `not:ext`
are rejected. -/
theorem buildCondition_succeeds_iff (compile : String → Option Regexp) (g : Globals)
    (t p : String) :
    ((∃ c, buildCondition compile g t p = .ok c) ↔
        stringsTrimSuffix t ":not" ∈ registryNames ∧ (compile p).isSome = true) ∧
      (∀ c, buildCondition compile g t p = .ok c →
        c.Mode = stringsTrimSuffix t ":not" ∧ c.Negate = stringsHasSuffix t ":not" ∧
          compile p = some c.Regex) ∧
      ((procMapEntries g).map Prod.fst = registryNames ∧ registryNames.length = 14) ∧
      (∀ t0 ∈ ["ext:not:not", ":not", "not:ext"], ∀ c, buildCondition compile g t0 p ≠ .ok c) ∧
      (stringsTrimSuffix "ext:not:not" ":not" = "ext:not" ∧
        stringsTrimSuffix ":not" ":not" = "" ∧ stringsTrimSuffix "not:ext" ":not" = "not:ext") := by
  refine ⟨?_, ?_, ⟨rfl, rfl⟩, ?_, ?_⟩
  · constructor
    · rintro ⟨c, hc⟩
      have := (buildCondition_ok_iff compile g t p c).mp hc
      exact ⟨this.1, by rw [this.2.1]; rfl⟩
    · rintro ⟨h1, h2⟩
      obtain ⟨re, hre⟩ := Option.isSome_iff_exists.mp h2
      exact ⟨⟨stringsTrimSuffix t ":not", stringsHasSuffix t ":not", re⟩,
        (buildCondition_ok_iff compile g t p _).mpr ⟨h1, hre, rfl, rfl⟩⟩
  · intro c hc
    have := (buildCondition_ok_iff compile g t p c).mp hc
    exact ⟨this.2.2.1, this.2.2.2, this.2.1⟩
  · intro t0 ht0 c hc
    have h := ((buildCondition_ok_iff compile g t0 p c).mp hc).1
    simp only [List.mem_cons, List.mem_singleton, List.not_mem_nil, or_false] at ht0
    rcases ht0 with rfl | rfl | rfl
    · revert h; decide
    · revert h; decide
    · revert h; decide
  · decide

/-- C13: when the number of arguments is odd, or some mode/pattern pair, at any
position, has an unknown base mode or a pattern that does not compile, the run
writes no line and ends with exit status 1, whatever the input lines are. -/
theorem config_error_aborts (parse : String → Except Error URL)
    (compile : String → Option Regexp) (g : Globals) (args lines : List String)
    (h : args.length % 2 = 1 ∨
      ∃ pre t p post, args = pre ++ t :: p :: post ∧ pre.length % 2 = 0 ∧
        (stringsTrimSuffix t ":not" ∉ registryNames ∨ compile p = none)) :
    (main parse compile g args lines).stdout = [] ∧
      (main parse compile g args lines).exitCode = 1 := by
  unfold main
  by_cases hodd : args.length % 2 ≠ 0
  · rw [if_pos hodd]
    exact ⟨rfl, rfl⟩
  · rw [if_neg hodd]
    rcases h with h | ⟨pre, t, p, post, rfl, hpre, hbad⟩
    · exact absurd (by omega) hodd
    · have hno : ∀ c, buildCondition compile g t p ≠ .ok c := by
        intro c hc
        have := (buildCondition_ok_iff compile g t p c).mp hc
        rcases hbad with hb | hb
        · exact hb this.1
        · rw [hb] at this
          exact absurd this.2.1 (by simp)
      have herr := buildConditions_bad_pair compile g t p post hno pre [] hpre
      cases hb : buildConditions compile g (pre ++ t :: p :: post) [] with
      | error e => exact ⟨rfl, rfl⟩
      | ok conds =>
        rw [hb] at herr
        exact absurd herr (by simp [Except.toBool])

theorem config_error_aborts_witness :
    (main url.Parse (fun p => if p = "(" then none else some (literalRegexp p))
        ⟨⟨id, id, id⟩, false⟩ ["ext", "js", "scheme", "("] ["http://a/x.js"]).stdout = [] ∧
      (main url.Parse (fun p => if p = "(" then none else some (literalRegexp p))
        ⟨⟨id, id, id⟩, false⟩ ["ext", "js", "scheme", "("] ["http://a/x.js"]).exitCode = 1 :=
  config_error_aborts url.Parse (fun p => if p = "(" then none else some (literalRegexp p))
    ⟨⟨id, id, id⟩, false⟩ ["ext", "js", "scheme", "("] ["http://a/x.js"]
    (Or.inr ⟨["ext", "js"], "scheme", "(", [], rfl, rfl, Or.inr rfl⟩)

/-- C18: every condition produced by a successful configuration phase has a
mode that is a key of the registry and a regex that the compiler returned; so
the lookup in the matching loop succeeds for each of them, and the loop's
answer does not depend on what the unknown-mode branch would yield. -/
theorem configured_modes_registered (compile : String → Option Regexp) (g : Globals)
    (args : List String) (conds : List Condition)
    (h : buildConditions compile g args [] = .ok conds) :
    (∀ c ∈ conds, c.Mode ∈ registryNames ∧ (∃ procFn, procMap g c.Mode = some procFn) ∧
        ∃ p, compile p = some c.Regex) ∧
      (∀ u, matchConditions g conds u =
        conds.all (fun c =>
          match procMap g c.Mode with
          | none => true
          | some procFn => xor (procFn u c.Regex) c.Negate)) := by
  have hinv : ∀ c ∈ conds, c.Mode ∈ registryNames ∧
      (∃ procFn, procMap g c.Mode = some procFn) ∧ ∃ p, compile p = some c.Regex := by
    refine buildConditions_invariant compile g _ ?_ args [] conds h (by simp)
    intro t p c hc
    have := (buildCondition_ok_iff compile g t p c).mp hc
    refine ⟨this.2.2.1 ▸ this.1, ?_, p, this.2.1⟩
    have hs := (procMap_isSome_iff g c.Mode).mpr (this.2.2.1 ▸ this.1)
    exact Option.isSome_iff_exists.mp hs
  refine ⟨hinv, ?_⟩
  intro u
  rw [matchConditions_eq_all, Bool.eq_iff_iff, List.all_eq_true, List.all_eq_true]
  constructor
  · intro hall c hc
    obtain ⟨_, ⟨f, hf⟩, _⟩ := hinv c hc
    have := hall c hc
    simp only [specEvaluate, hf] at this
    simp only [hf, this]
  · intro hall c hc
    obtain ⟨_, ⟨f, hf⟩, _⟩ := hinv c hc
    have := hall c hc
    simp only [hf] at this
    simp only [specEvaluate, hf, this]

theorem configured_modes_registered_witness :
    buildConditions (fun p => some (literalRegexp p)) ⟨⟨id, id, id⟩, false⟩
        ["ext", "js", "scheme:not", "https"] [] =
        .ok [⟨"ext", false, literalRegexp "js"⟩, ⟨"scheme", true, literalRegexp "https"⟩] ∧
      ∀ c ∈ [(⟨"ext", false, literalRegexp "js"⟩ : Condition),
          ⟨"scheme", true, literalRegexp "https"⟩],
        c.Mode ∈ registryNames ∧
          (∃ procFn, procMap ⟨⟨id, id, id⟩, false⟩ c.Mode = some procFn) ∧
          ∃ p, (fun p => some (literalRegexp p)) p = some c.Regex :=
  ⟨rfl,
    (configured_modes_registered (fun p => some (literalRegexp p)) ⟨⟨id, id, id⟩, false⟩
      ["ext", "js", "scheme:not", "https"]
      [⟨"ext", false, literalRegexp "js"⟩, ⟨"scheme", true, literalRegexp "https"⟩] rfl).1⟩

/-- C14: a line on which `parseURL` fails leaves the state of the scanning loop
as it was: it writes nothing, is not put into the seen-set, and the output is
the output of the same input with the unparseable lines removed. -/
theorem unparseable_lines_skipped (parse : String → Except Error URL) (g : Globals)
    (conds : List Condition) (lines : List String) :
    processLines parse g conds lines =
        processLines parse g conds (lines.filter (fun s => (parseURL parse s).toBool)) ∧
      (∀ st s e, parseURL parse s = .error e → processLine parse g conds st s = st) ∧
      (∀ s, (parseURL parse s).toBool = false →
        s ∉ processLines parse g conds lines ∧
          s ∉ (lines.foldl (processLine parse g conds) ⟨[], []⟩).seen) := by
  have hout : ∀ s, (parseURL parse s).toBool = false → s ∉ processLines parse g conds lines := by
    intro s hs hmem
    rw [processLines_eq, mem_firstOccurrences, List.mem_filter] at hmem
    have := lineMatches_parses parse g conds s hmem.2
    rw [hs] at this
    exact Bool.false_ne_true this
  refine ⟨?_, ?_, ?_⟩
  · rw [processLines_eq, processLines_eq, List.filter_filter]
    congr 1
    apply List.filter_congr
    intro s _
    cases hm : lineMatches parse g conds s
    · rfl
    · rw [lineMatches_parses parse g conds s hm]
      rfl
  · intro st s e he
    unfold processLine
    rw [he]
  · intro s hs
    refine ⟨hout s hs, ?_⟩
    rw [foldl_processLine_seen parse g conds lines ⟨[], []⟩ rfl, List.mem_reverse]
    exact hout s hs

/-- C19: running the scanning loop on its own output gives that output again;
the loop's decision for a line is a function of the line alone, and the state
only decides whether a matching line was already written. -/
theorem pipeline_idempotent (parse : String → Except Error URL) (g : Globals)
    (conds : List Condition) (lines : List String) :
    processLines parse g conds (processLines parse g conds lines) =
        processLines parse g conds lines ∧
      (∀ st s, processLine parse g conds st s =
        if lineMatches parse g conds s = true ∧ s ∉ st.seen then
          ⟨s :: st.seen, st.out ++ [s]⟩
        else st) := by
  refine ⟨?_, processLine_eq parse g conds⟩
  have h1 := processLines_eq parse g conds lines
  have hall : (processLines parse g conds lines).filter (lineMatches parse g conds) =
      processLines parse g conds lines := by
    rw [List.filter_eq_self]
    intro s hs
    rw [h1, mem_firstOccurrences, List.mem_filter] at hs
    exact hs.2
  rw [processLines_eq parse g conds (processLines parse g conds lines), hall]
  apply firstOccurrences_of_nodup
  rw [h1]
  exact firstOccurrences_nodup _

/-- C17: `parseURL` returns the first parse's result unchanged when its scheme
is not empty, and the first parse's error when it fails; in both cases the
result does not depend on what the parser does with the prefixed text.
`http://exa mple.com` is rejected with the first error although the prefixed
text would parse. -/
theorem parseURL_retry_only_when_schemeless (parse : String → Except Error URL)
    (raw : String) :
    (∀ u, parse raw = .ok u → u.Scheme ≠ "" → parseURL parse raw = .ok u) ∧
      (∀ e, parse raw = .error e → parseURL parse raw = .error e) ∧
      (∀ parse2 : String → Except Error URL, parse2 raw = parse raw →
        (∀ u, parse raw = .ok u → u.Scheme ≠ "") →
        parseURL parse2 raw = parseURL parse raw) ∧
      parseURL url.Parse "http://exa mple.com" =
        .error ⟨"parse", "http://exa mple.com", "invalid character   in host name"⟩ ∧
      (url.Parse ("http://" ++ "http://exa mple.com")).toBool = true ∧
      parseURL url.Parse "https://example.com/x" =
        .ok ⟨"https", "", none, "example.com", "/x", "", false, false, "", "", ""⟩ := by
  refine ⟨parseURL_of_scheme parse raw, parseURL_of_error parse raw, ?_, rfl, rfl, rfl⟩
  intro parse2 h2 hs
  cases h : parse raw with
  | error e =>
    rw [parseURL_of_error parse raw e h, parseURL_of_error parse2 raw e (h2.trans h)]
  | ok u =>
    rw [parseURL_of_scheme parse raw u h (hs u h),
      parseURL_of_scheme parse2 raw u (h2.trans h) (hs u h)]

/-- C15: with a domain splitter that answers `sub`, `example` and `co.uk` for the
hostname `sub.example.co.uk`, on the URL `https://sub.example.co.uk/x` the tld
mode tests the regex on `co.uk`, the apex mode on `example.co.uk`, and the
subdomain mode on `sub`. -/
theorem domain_modes_on_example (ex : Parser) (rawMode : Bool) (re : Regexp)
    (hsub : ex.GetSubdomain "sub.example.co.uk" = "sub")
    (hdom : ex.GetDomain "sub.example.co.uk" = "example")
    (htld : ex.GetTld "sub.example.co.uk" = "co.uk") :
    ∃ u, parseURL url.Parse "https://sub.example.co.uk/x" = .ok u ∧
      u.Hostname = "sub.example.co.uk" ∧
      tld ⟨ex, rawMode⟩ u re = re.MatchString "co.uk" ∧
      apex ⟨ex, rawMode⟩ u re = re.MatchString "example.co.uk" ∧
      subdomain ⟨ex, rawMode⟩ u re = re.MatchString "sub" := by
  refine ⟨⟨"https", "", none, "sub.example.co.uk", "/x", "", false, false, "", "", ""⟩,
    rfl, rfl, ?_, ?_, ?_⟩
  · have hh : URL.Hostname
        ⟨"https", "", none, "sub.example.co.uk", "/x", "", false, false, "", "", ""⟩ =
        "sub.example.co.uk" := rfl
    simp only [tld, hh, htld]
  · have hh : URL.Hostname
        ⟨"https", "", none, "sub.example.co.uk", "/x", "", false, false, "", "", ""⟩ =
        "sub.example.co.uk" := rfl
    simp only [apex, hh, hdom, htld]
    rfl
  · have hh : URL.Hostname
        ⟨"https", "", none, "sub.example.co.uk", "/x", "", false, false, "", "", ""⟩ =
        "sub.example.co.uk" := rfl
    simp only [subdomain, hh, hsub]

theorem domain_modes_on_example_witness :
    ∃ u, parseURL url.Parse "https://sub.example.co.uk/x" = .ok u ∧
      u.Hostname = "sub.example.co.uk" ∧
      tld ⟨⟨fun _ => "example", fun _ => "co.uk", fun _ => "sub"⟩, false⟩ u
        (anchoredRegexp "co.uk") = (anchoredRegexp "co.uk").MatchString "co.uk" ∧
      apex ⟨⟨fun _ => "example", fun _ => "co.uk", fun _ => "sub"⟩, false⟩ u
        (anchoredRegexp "co.uk") = (anchoredRegexp "co.uk").MatchString "example.co.uk" ∧
      subdomain ⟨⟨fun _ => "example", fun _ => "co.uk", fun _ => "sub"⟩, false⟩ u
        (anchoredRegexp "co.uk") = (anchoredRegexp "co.uk").MatchString "sub" :=
  domain_modes_on_example ⟨fun _ => "example", fun _ => "co.uk", fun _ => "sub"⟩ false
    (anchoredRegexp "co.uk") rfl rfl rfl

/-- C20: `parseQueryV2` is total; every iteration of its loop, whatever the
branch taken on the piece, goes on with a strictly shorter query; the loop
visits the `&`-separated pieces once each, and the number of values it adds to
the map is at most the number of pieces. -/
theorem parseQueryV2_terminates (m : Values) (q : String) :
    (q.data ≠ [] → (stringsCut q '&').2.1.data.length < q.data.length) ∧
      (q.data ≠ [] → ∀ st, queryLoop parseQueryV2Step st q =
        queryLoop parseQueryV2Step (parseQueryV2Step st (stringsCut q '&').1)
          (stringsCut q '&').2.1) ∧
      (q.data = [] → parseQueryV2 m q = (m, none)) ∧
      parseQueryV2 m q = (pairsOf q).foldl parseQueryV2Step (m, none) ∧
      Values.count (parseQueryV2 m q).1 ≤ Values.count m + (pairsOf q).length ∧
      Values.count (parseQueryV2 [] "a=1&;&&b&a=2").1 = 3 := by
  refine ⟨fun h => cutChars_after_lt '&' q.data h, fun h st => queryLoop_step _ st q h,
    ?_, parseQueryV2_eq_foldl m q, ?_, ?_⟩
  · intro h
    unfold parseQueryV2
    rw [queryLoop, if_pos h]
  · rw [parseQueryV2_map, foldl_add_count]
    have := List.length_filter_le recordedPair (pairsOf q)
    omega
  · rw [parseQueryV2_eq_foldl]
    rfl

/-- C16, the code at the failing input: the line `http://x/a/file%2Ejs` has the
escaped path `/a/file%2Ejs` and the decoded path `/a/file.js`; `ext` reads the
decoded path and does not read the raw flag, so with the flag set the condition
`ext ^js$` holds and the line is written, while on the escaped path `ext` would
find no extension. -/
theorem ext_reads_decoded_path_in_raw_mode :
    url.Parse "http://x/a/file%2Ejs" =
        .ok ⟨"http", "", none, "x", "/a/file.js", "/a/file%2Ejs", false, false, "", "", ""⟩ ∧
      URL.EscapedPath
          ⟨"http", "", none, "x", "/a/file.js", "/a/file%2Ejs", false, false, "", "", ""⟩ =
        "/a/file%2Ejs" ∧
      ext ⟨"http", "", none, "x", "/a/file.js", "/a/file%2Ejs", false, false, "", "", ""⟩
          (anchoredRegexp "js") = true ∧
      (∀ re, ext ⟨"http", "", none, "x", "/a/file%2Ejs", "", false, false, "", "", ""⟩ re
          = false) ∧
      (∀ ex u re, (procMap ⟨ex, true⟩ "ext").map (fun procFn => procFn u re) =
          (procMap ⟨ex, false⟩ "ext").map (fun procFn => procFn u re)) ∧
      (main url.Parse (fun _ => some (anchoredRegexp "js")) ⟨⟨id, id, id⟩, true⟩
          ["ext", "^js$"] ["http://x/a/file%2Ejs"]).stdout = ["http://x/a/file%2Ejs"] := by
  refine ⟨rfl, rfl, rfl, ?_, ?_, rfl⟩
  · intro re
    rfl
  · intro ex u re
    rfl

end Urlgrep
